import Mathlib

/-!
Verification of the similarity lookup and ranking engine of `src/anime2.py`.

The program is a Streamlit app.  Its core (`recommend`) resolves a free-text
query against the catalog name list with `difflib.get_close_matches(name,
pt.index, n=1, cutoff=0.6)`, looks the resolved name up with
`pt.index.get_loc`, ranks the similarity row with
`sorted(list(enumerate(similarity_score[index])), key=lambda x: x[1],
reverse=True)[1:6]`, and enriches each suggestion with a best-effort
external fetch, silently skipping failures.

Modelling choices (each noted where used):
  * similarity scores and match ratios are exact rationals; the Python code
    holds float32 scores and float ratios, but performs no arithmetic on
    scores, only comparisons, so a linear order is the behaviourally
    relevant structure;
  * Python's stable sort (`sorted`, and `heapq.nlargest`, documented as
    `sorted(iterable, reverse=True)[:n]`) is modelled by a stable
    insertion sort with the same descending comparison semantics;
  * `difflib` is Python standard library code invoked by line 56 of the
    source; its matcher is modelled from its implementation with the
    default `junk=None` and the default `autojunk=True`, including the
    popularity purge that `autojunk` applies when the query string has
    at least 200 characters, and the equal-element extension loops of
    `find_longest_match` that run across purged popular elements.
-/

/-- Stable insertion step for a descending sort: `x` is placed in front of
the first element that is not strictly greater than it, so among equal
elements the one inserted last (the one earliest in the original list)
comes first.  This matches CPython's stable `sorted(..., reverse=True)`. -/
def insertD (lt : α → α → Bool) (x : α) : List α → List α
  | [] => [x]
  | y :: ys => if lt x y then y :: insertD lt x ys else x :: y :: ys

/-- Stable descending sort by the strict comparison `lt`, the model of
Python's `sorted(l, key=..., reverse=True)`. -/
def sortD (lt : α → α → Bool) (l : List α) : List α := l.foldr (insertD lt) []

theorem insertD_perm (lt : α → α → Bool) (x : α) (l : List α) :
    (insertD lt x l).Perm (x :: l) := by
  induction l with
  | nil => exact List.Perm.refl _
  | cons y ys ih =>
    simp only [insertD]
    by_cases h : lt x y
    · simp only [h, if_pos]
      exact (List.Perm.cons y ih).trans (List.Perm.swap x y ys)
    · simp only [h, if_neg, Bool.false_eq_true, not_false_iff]
      exact List.Perm.refl _

theorem sortD_perm (lt : α → α → Bool) (l : List α) : (sortD lt l).Perm l := by
  induction l with
  | nil => exact List.Perm.refl _
  | cons x xs ih =>
    exact (insertD_perm lt x (sortD lt xs)).trans (List.Perm.cons x ih)

theorem mem_sortD (lt : α → α → Bool) (l : List α) (a : α) :
    a ∈ sortD lt l ↔ a ∈ l :=
  (sortD_perm lt l).mem_iff

theorem length_sortD (lt : α → α → Bool) (l : List α) :
    (sortD lt l).length = l.length :=
  (sortD_perm lt l).length_eq

theorem mem_insertD (lt : α → α → Bool) (x : α) (l : List α) (a : α) :
    a ∈ insertD lt x l ↔ a = x ∨ a ∈ l := by
  have h := (insertD_perm lt x l).mem_iff (a := a)
  simpa using h

/-- Head of the stable descending sort is a maximum: nothing in the sorted
list is strictly greater than the head.  `lt` must be a strict total order
(asymmetric, transitive, connex). -/
theorem headMax_insertD (lt : α → α → Bool)
    (hasymm : ∀ a b, lt a b = true → lt b a = false)
    (htrans : ∀ a b c, lt a b = true → lt b c = true → lt a c = true)
    (hconn : ∀ a b, lt a b = false → lt b a = false → a = b)
    (x : α) (l : List α)
    (hl : ∀ h t, l = h :: t → ∀ y ∈ l, lt h y = false) :
    ∀ h t, insertD lt x l = h :: t → ∀ y ∈ insertD lt x l, lt h y = false := by
  have hirrefl : ∀ a, lt a a = false := by
    intro a
    by_cases h : lt a a
    · exact absurd (hasymm a a h) (by simp [h])
    · simpa using h
  cases l with
  | nil =>
    intro h t hht y hy
    simp only [insertD] at hht hy
    cases hht
    simp only [List.mem_singleton] at hy
    subst hy
    exact hirrefl _
  | cons z zs =>
    intro h t hht y hy
    simp only [insertD] at hht hy
    by_cases hxz : lt x z
    · simp only [hxz, if_pos] at hht hy
      cases hht
      rcases (List.mem_cons.mp hy) with hyz | hy2
      · subst hyz; exact hirrefl _
      · rcases (mem_insertD lt x zs y).mp hy2 with hyx | hyzs
        · subst hyx; exact hasymm _ _ hxz
        · exact hl z zs rfl y (List.mem_cons_of_mem _ hyzs)
    · simp only [hxz, Bool.false_eq_true, if_neg, not_false_iff] at hht hy
      cases hht
      rcases List.mem_cons.mp hy with hyx | hy2
      · subst hyx; exact hirrefl _
      · have hxz2 : lt x z = false := by simpa using hxz
        rcases List.mem_cons.mp hy2 with hyz | hyzs
        · subst hyz; exact hxz2
        · -- y is in zs; head property of the old list gives lt z y = false
          have hzy : lt z y = false := hl z zs rfl y (List.mem_cons_of_mem _ hyzs)
          by_cases hxy : lt x y
          · -- from lt x z = false: either z = x (contradiction with hzy) or lt z x
            by_cases hzx : lt z x
            · exact absurd (htrans z x y hzx hxy) (by simp [hzy])
            · have : x = z := hconn x z hxz2 (by simpa using hzx)
              subst this
              exact absurd hxy (by simp [hzy])
          · simpa using hxy

theorem headMax_sortD (lt : α → α → Bool)
    (hasymm : ∀ a b, lt a b = true → lt b a = false)
    (htrans : ∀ a b c, lt a b = true → lt b c = true → lt a c = true)
    (hconn : ∀ a b, lt a b = false → lt b a = false → a = b)
    (l : List α) :
    ∀ h t, sortD lt l = h :: t → ∀ y ∈ sortD lt l, lt h y = false := by
  induction l with
  | nil => intro h t hht; simp [sortD] at hht
  | cons x xs ih =>
    simpa only [sortD, List.foldr] using
      headMax_insertD lt hasymm htrans hconn x (sortD lt xs) ih

/-! ## Ranker

`recommend` (src/anime2.py line 63) computes
`sorted(list(enumerate(similarity_score[index])), key=lambda x: x[1],
reverse=True)[1:6]`: pair every column index with its score, stable-sort
descending by score, then take the slice `[1:6]` (drop the first sorted
entry, keep the next five). -/

/-- Comparison used by the Python sort key `lambda x: x[1]`: compare
(index, score) pairs by score only. -/
def scoreLt (p q : Nat × ℚ) : Bool := decide (p.2 < q.2)

/-- The ranked-and-sliced similarity row: Python's
`sorted(list(enumerate(row)), key=lambda x: x[1], reverse=True)[1:6]`. -/
def similarItems (row : List ℚ) : List (Nat × ℚ) :=
  ((sortD scoreLt row.enum).drop 1).take 5

/-- The similarity row used for a resolved index: `similarity_score[index]`.
An out-of-range index raises `IndexError` in Python (a caller bug per the
spec); the model totalises it with an empty row, never reached under the
in-range hypotheses of the theorems below. -/
def rankerRow (M : List (List ℚ)) (index : Nat) : List ℚ := M.getD index []

/-- The order the sorted list satisfies: strictly greater score first, and
among equal scores the smaller original column index first. -/
def RankOrd (p q : Nat × ℚ) : Prop := q.2 < p.2 ∨ (p.2 = q.2 ∧ p.1 < q.1)

theorem pairwise_insertD_rankOrd (x : Nat × ℚ) (l : List (Nat × ℚ))
    (hl : l.Pairwise RankOrd) (hidx : ∀ y ∈ l, x.1 < y.1) :
    (insertD scoreLt x l).Pairwise RankOrd := by
  induction l with
  | nil => simp [insertD, List.pairwise_singleton]
  | cons y ys ih =>
    rcases List.pairwise_cons.mp hl with ⟨hy, hys⟩
    simp only [insertD]
    by_cases h : scoreLt x y
    · simp only [h, if_pos]
      refine List.pairwise_cons.mpr ⟨?_, ih hys (fun z hz => hidx z (List.mem_cons_of_mem _ hz))⟩
      intro z hz
      rcases (mem_insertD scoreLt x ys z).mp hz with hzx | hzys
      · subst hzx
        exact Or.inl (of_decide_eq_true h)
      · exact hy z hzys
    · have hxy : ¬ x.2 < y.2 := by simpa [scoreLt] using h
      simp only [h, Bool.false_eq_true, if_neg, not_false_iff]
      refine List.pairwise_cons.mpr ⟨?_, hl⟩
      intro z hz
      rcases List.mem_cons.mp hz with hzy | hzys
      · subst hzy
        rcases lt_or_eq_of_le (not_lt.mp hxy) with hlt | heq
        · exact Or.inl hlt
        · exact Or.inr ⟨heq.symm, hidx z (List.mem_cons_self _ _)⟩
      · rcases hy z hzys with hlt | ⟨heq, _⟩
        · exact Or.inl (lt_of_lt_of_le hlt (not_lt.mp hxy))
        · rcases lt_or_eq_of_le (not_lt.mp hxy) with hlt2 | heq2
          · exact Or.inl (heq ▸ hlt2)
          · exact Or.inr ⟨heq2.symm.trans heq, hidx z (List.mem_cons_of_mem _ hzys)⟩

theorem pairwise_sortD_rankOrd (l : List (Nat × ℚ))
    (hl : l.Pairwise (fun p q => p.1 < q.1)) :
    (sortD scoreLt l).Pairwise RankOrd := by
  induction l with
  | nil => simp [sortD]
  | cons x xs ih =>
    rcases List.pairwise_cons.mp hl with ⟨hx, hxs⟩
    have : ∀ y ∈ sortD scoreLt xs, x.1 < y.1 := by
      intro y hy
      exact hx y ((mem_sortD scoreLt xs y).mp hy)
    simpa only [sortD, List.foldr] using pairwise_insertD_rankOrd x (sortD scoreLt xs) (ih hxs) this

theorem pairwise_fst_enumFrom {α : Type} (n : Nat) (l : List α) :
    (List.enumFrom n l).Pairwise (fun p q => p.1 < q.1) := by
  induction l generalizing n with
  | nil => simp
  | cons x xs ih =>
    refine List.pairwise_cons.mpr ⟨?_, ih (n + 1)⟩
    intro p hp
    have := (List.mem_enumFrom hp).1
    omega

theorem pairwise_fst_enum {α : Type} (l : List α) :
    l.enum.Pairwise (fun p q => p.1 < q.1) :=
  pairwise_fst_enumFrom 0 l

theorem pairwise_sortD_enum (row : List ℚ) :
    (sortD scoreLt row.enum).Pairwise RankOrd :=
  pairwise_sortD_rankOrd _ (pairwise_fst_enum row)

theorem similarItems_sublist_sorted (row : List ℚ) :
    (similarItems row).Sublist (sortD scoreLt row.enum) :=
  (List.take_sublist _ _).trans (List.drop_sublist _ _)

theorem nodup_fst_sortD_enum (row : List ℚ) :
    ((sortD scoreLt row.enum).map Prod.fst).Nodup := by
  have hperm := (sortD_perm scoreLt row.enum).map Prod.fst
  have : (List.map Prod.fst row.enum).Nodup := by
    rw [List.enum_map_fst]
    exact List.nodup_range _
  exact (hperm.symm.nodup this : _)

theorem getD_mem_enumFrom (l : List ℚ) :
    ∀ (n k : Nat), k < l.length → (n + k, l.getD k 0) ∈ List.enumFrom n l := by
  induction l with
  | nil => intro n k h; simp at h
  | cons x xs ih =>
    intro n k h
    cases k with
    | zero => simp [List.enumFrom]
    | succ k =>
      have := ih (n + 1) k (by simpa using h)
      simp only [List.enumFrom, List.mem_cons]
      right
      have harith : n + 1 + k = n + (k + 1) := by omega
      simpa [harith] using this

theorem getD_mem_enum (l : List ℚ) (k : Nat) (h : k < l.length) :
    (k, l.getD k 0) ∈ l.enum := by
  have := getD_mem_enumFrom l 0 k h
  simpa [List.enum] using this

theorem mem_enum_eq_getD (l : List ℚ) (p : Nat × ℚ) (h : p ∈ l.enum) :
    p.1 < l.length ∧ p.2 = l.getD p.1 0 := by
  obtain ⟨i, x⟩ := p
  have := List.mem_enumFrom (j := 0) (by simpa [List.enum] using h)
  rcases this with ⟨_, hlt, hx⟩
  refine ⟨by omega, ?_⟩
  rw [List.getD_eq_getElem l 0 (by omega)]
  simpa using hx

/-- If the score at `index` is strictly greater than every other score in
the row, the stable descending sort puts the `index` entry first. -/
theorem sortD_head_of_strict_max (row : List ℚ) (index : Nat)
    (hidx : index < row.length)
    (hmax : ∀ j, j < row.length → j ≠ index → row.getD j 0 < row.getD index 0) :
    ∃ t, sortD scoreLt row.enum = (index, row.getD index 0) :: t := by
  have hlen : (sortD scoreLt row.enum).length = row.length := by
    rw [length_sortD, List.enum_length]
  cases hs : sortD scoreLt row.enum with
  | nil => rw [hs] at hlen; simp at hlen; omega
  | cons h t =>
    have hmem : (index, row.getD index 0) ∈ sortD scoreLt row.enum :=
      (mem_sortD _ _ _).mpr (getD_mem_enum row index hidx)
    have hh : h ∈ sortD scoreLt row.enum := by rw [hs]; exact List.mem_cons_self _ _
    rcases mem_enum_eq_getD row h ((mem_sortD _ _ _).mp hh) with ⟨hh1, hh2⟩
    by_cases hcase : h.1 = index
    · refine ⟨t, ?_⟩
      have hhe : h = (index, row.getD index 0) := by
        rw [Prod.ext_iff]
        exact ⟨hcase, by rw [hh2, hcase]⟩
      rw [hhe]
    · exfalso
      have hpw := pairwise_sortD_enum row
      rw [hs] at hpw
      rcases List.pairwise_cons.mp hpw with ⟨hhead, _⟩
      rw [hs] at hmem
      rcases List.mem_cons.mp hmem with heq | hmemt
      · have : h.1 = index := by rw [← heq]
        exact hcase this
      · rcases hhead _ hmemt with hlt | ⟨heq2, _⟩
        · simp only at hlt
          have := hmax h.1 hh1 hcase
          rw [← hh2] at this
          exact absurd hlt (not_lt.mpr this.le)
        · have := hmax h.1 hh1 hcase
          rw [← hh2] at this
          simp only at heq2
          exact absurd heq2 (ne_of_lt this)

/-- C1, amended part.  If the self-similarity score strictly dominates the
row, the self entry is the head the slice `[1:6]` drops, and the dropped-
entry indices are distinct, so the output never shows the query index. -/
theorem similarItems_not_self (row : List ℚ) (index : Nat)
    (hidx : index < row.length)
    (hmax : ∀ j, j < row.length → j ≠ index → row.getD j 0 < row.getD index 0) :
    ∀ p ∈ similarItems row, p.1 ≠ index := by
  obtain ⟨t, ht⟩ := sortD_head_of_strict_max row index hidx hmax
  intro p hp hpi
  have hnodup := nodup_fst_sortD_enum row
  rw [ht] at hnodup
  simp only [List.map_cons, List.nodup_cons] at hnodup
  apply hnodup.1
  have hpt : p ∈ t := by
    have : p ∈ (((index, row.getD index 0) :: t).drop 1).take 5 := by
      simpa only [similarItems, ht] using hp
    simp only [List.drop_one, List.tail_cons] at this
    exact (List.take_sublist _ _).mem this
  rw [← hpi]
  exact List.mem_map_of_mem Prod.fst hpt

/-- Claim C1, counterexample.  With the duplicate-row matrix
`[[1,1],[1,1]]` and resolved index 1 (in range), the Ranker's output
contains the query's own index: the tied entry at column 0 is the one the
unconditional drop of the first sorted element removes, not the self
entry.  This refutes the claim for matrices where another entry ties with
the self-similarity score. -/
theorem claim_C1_counterexample :
    1 < ([[(1:ℚ), 1], [1, 1]] : List (List ℚ)).length ∧
    (1, (1:ℚ)) ∈ similarItems (rankerRow [[(1:ℚ), 1], [1, 1]] 1) := by
  decide

/-- Claim C1, amended.  For every in-range resolved index whose
self-similarity score is strictly greater than every other entry of its
row (the assumption the spec itself flags), the Ranker's output never
contains the query's own resolved index. -/
theorem claim_C1_amended (M : List (List ℚ)) (index : Nat)
    (hM : index < M.length)
    (hsq : ∀ r ∈ M, r.length = M.length)
    (hmax : ∀ j, j < (rankerRow M index).length → j ≠ index →
      (rankerRow M index).getD j 0 < (rankerRow M index).getD index 0) :
    ∀ p ∈ similarItems (rankerRow M index), p.1 ≠ index := by
  have hrow : rankerRow M index ∈ M := by
    rw [rankerRow, List.getD_eq_getElem M [] hM]
    exact List.getElem_mem hM
  have hlen : (rankerRow M index).length = M.length := hsq _ hrow
  exact similarItems_not_self _ index (by omega) hmax

theorem claim_C1_amended_witness :
    (0 < ([[(1:ℚ), 0], [0, 1]] : List (List ℚ)).length) ∧
    ∀ p ∈ similarItems (rankerRow [[(1:ℚ), 0], [0, 1]] 0), p.1 ≠ 0 :=
  ⟨by decide, claim_C1_amended [[(1:ℚ), 0], [0, 1]] 0 (by decide) (by decide) (by decide)⟩

/-- Claim C2.  For every in-range index and every similarity matrix, the
Ranker's output is ordered by descending similarity score, and any two
entries with equal scores appear in ascending order of their original
column index. -/
theorem claim_C2_sorted (M : List (List ℚ)) (index : Nat)
    (hM : index < M.length) :
    (similarItems (rankerRow M index)).Pairwise
      (fun p q => q.2 ≤ p.2 ∧ (p.2 = q.2 → p.1 < q.1)) := by
  have hpw : (similarItems (rankerRow M index)).Pairwise RankOrd :=
    List.Pairwise.sublist (similarItems_sublist_sorted _) (pairwise_sortD_enum _)
  refine hpw.imp ?_
  intro p q hpq
  rcases hpq with hlt | ⟨heq, hidx⟩
  · exact ⟨hlt.le, fun h => absurd h (ne_of_gt hlt)⟩
  · exact ⟨heq.ge, fun _ => hidx⟩

theorem claim_C2_sorted_witness :
    (1 < ([[(1:ℚ), 2], [2, 1]] : List (List ℚ)).length) ∧
    (similarItems (rankerRow [[(1:ℚ), 2], [2, 1]] 1)).Pairwise
      (fun p q => q.2 ≤ p.2 ∧ (p.2 = q.2 → p.1 < q.1)) :=
  ⟨by decide, claim_C2_sorted [[(1:ℚ), 2], [2, 1]] 1 (by decide)⟩

/-- Claim C3.  For every in-range index and every square catalog of size
`n`, the Ranker's output has length exactly `min 5 (n - 1)`, and it is
shorter than `K = 5` only when the catalog has fewer than 6 entries. -/
theorem claim_C3_length (M : List (List ℚ)) (n index : Nat)
    (hlen : M.length = n) (hsq : ∀ r ∈ M, r.length = n) (hidx : index < n) :
    (similarItems (rankerRow M index)).length = min 5 (n - 1) ∧
    ((similarItems (rankerRow M index)).length < 5 → n < 6) := by
  have hrow : rankerRow M index ∈ M := by
    rw [rankerRow, List.getD_eq_getElem M [] (by omega)]
    exact List.getElem_mem (by omega)
  have hrlen : (rankerRow M index).length = n := hsq _ hrow
  have hmain : (similarItems (rankerRow M index)).length = min 5 (n - 1) := by
    simp only [similarItems, List.length_take, List.length_drop, length_sortD,
      List.enum_length, hrlen]
  exact ⟨hmain, by omega⟩

theorem claim_C3_length_witness :
    (([[(1:ℚ), 2], [2, 1]] : List (List ℚ)).length = 2) ∧ (0 < 2) ∧
    (similarItems (rankerRow [[(1:ℚ), 2], [2, 1]] 0)).length = min 5 (2 - 1) ∧
    ((similarItems (rankerRow [[(1:ℚ), 2], [2, 1]] 0)).length < 5 → 2 < 6) :=
  ⟨by decide, by decide,
    claim_C3_length [[(1:ℚ), 2], [2, 1]] 2 0 (by decide) (by decide) (by decide)⟩

/-- Claim C10.  For every in-range index and every similarity matrix, the
column indices in the Ranker's output are pairwise distinct. -/
theorem claim_C10_nodup (M : List (List ℚ)) (index : Nat)
    (hM : index < M.length) :
    ((similarItems (rankerRow M index)).map Prod.fst).Nodup := by
  have hsub := (similarItems_sublist_sorted (rankerRow M index)).map Prod.fst
  exact hsub.nodup (nodup_fst_sortD_enum _)

theorem claim_C10_nodup_witness :
    (1 < ([[(1:ℚ), 1], [1, 1]] : List (List ℚ)).length) ∧
    ((similarItems (rankerRow [[(1:ℚ), 1], [1, 1]] 1)).map Prod.fst).Nodup :=
  ⟨by decide, claim_C10_nodup [[(1:ℚ), 1], [1, 1]] 1 (by decide)⟩

/-! ## Name Resolver: the difflib matcher

Line 56 of the source calls `difflib.get_close_matches(anime_name,
pt.index, n=1, cutoff=0.6)`.  `get_close_matches` scores every candidate
`x` with `SequenceMatcher(None, x, word)` (so `a` is the candidate and
`b` is the query word) and keeps those whose `real_quick_ratio()`,
`quick_ratio()` and `ratio()` all reach the cutoff, then returns the `n`
largest `(ratio, candidate)` tuples (`heapq.nlargest`, documented as
`sorted(iterable, reverse=True)[:n]`).

`ratio()` is `2*M/T` where `T` is the total length of the two sequences
and `M` the total size of the matching blocks found by repeatedly taking
`find_longest_match` and recursing on the two sides.  With the default
`junk=None` the junk set `bjunk` is empty, but the default
`autojunk=True` is active: when `b` has at least 200 elements, elements
occurring more than `len(b) // 100 + 1` times are "popular" and are
purged from the position index `b2j` built from `b` (`__chain_b`).
`find_longest_match` then
  * finds, via the `j2len` run-length chaining over `b2j`, the longest
    run of pairwise equal elements all of whose `b`-side elements are
    non-popular (the core), preferring the earliest such run in `a`,
    then in `b` (the running best is replaced only on strictly larger
    size);
  * extends that core over pairwise equal elements — popular ones
    included, since popular elements are not junk — as far as possible
    to the left and then to the right ("Extend the best by non-junk
    elements on each end"); the final junk-extension loops are no-ops
    because `bjunk` is empty.
The popular set is computed once from the full `b` by `set_seq2` and
reused for every recursive window, so the model threads it through the
recursion as a fixed predicate `P`. -/

/-- Length of the longest common run at the start of two sequences. -/
def commonPrefixLen : List Char → List Char → Nat
  | x :: xs, y :: ys => if x = y then commonPrefixLen xs ys + 1 else 0
  | _, _ => 0

theorem commonPrefixLen_le_left : ∀ (a b : List Char), commonPrefixLen a b ≤ a.length := by
  intro a
  induction a with
  | nil => intro b; cases b <;> simp [commonPrefixLen]
  | cons x xs ih =>
    intro b
    cases b with
    | nil => simp [commonPrefixLen]
    | cons y ys =>
      simp only [commonPrefixLen, List.length_cons]
      by_cases h : x = y
      · simp only [h, if_pos]
        have := ih ys
        omega
      · simp [h]

theorem commonPrefixLen_le_right : ∀ (a b : List Char), commonPrefixLen a b ≤ b.length := by
  intro a
  induction a with
  | nil => intro b; cases b <;> simp [commonPrefixLen]
  | cons x xs ih =>
    intro b
    cases b with
    | nil => simp [commonPrefixLen]
    | cons y ys =>
      simp only [commonPrefixLen, List.length_cons]
      by_cases h : x = y
      · simp only [h, if_pos]
        have := ih ys
        omega
      · simp [h]

theorem commonPrefixLen_take_eq : ∀ (a b : List Char),
    a.take (commonPrefixLen a b) = b.take (commonPrefixLen a b) := by
  intro a
  induction a with
  | nil => intro b; cases b <;> simp [commonPrefixLen]
  | cons x xs ih =>
    intro b
    cases b with
    | nil => simp [commonPrefixLen]
    | cons y ys =>
      simp only [commonPrefixLen]
      by_cases h : x = y
      · simp only [h, if_pos, List.take_succ_cons]
        rw [ih ys]
      · simp [h]

theorem commonPrefixLen_self : ∀ (a : List Char), commonPrefixLen a a = a.length := by
  intro a
  induction a with
  | nil => simp [commonPrefixLen]
  | cons x xs ih => simp [commonPrefixLen, ih]

theorem commonPrefixLen_nil_left (y : List Char) : commonPrefixLen [] y = 0 := by
  cases y <;> rfl

theorem commonPrefixLen_nil_right (x : List Char) : commonPrefixLen x [] = 0 := by
  cases x <;> rfl

/-- Length of the longest common run at the end of two sequences: the
total left extension performed by the first `while` loop of
`find_longest_match` (with `junk=None` the junk test is always false, so
the loop's only conditions are the window bounds and element equality). -/
def commonSuffixLen (x y : List Char) : Nat :=
  commonPrefixLen x.reverse y.reverse

theorem commonSuffixLen_le_left (x y : List Char) :
    commonSuffixLen x y ≤ x.length := by
  have h := commonPrefixLen_le_left x.reverse y.reverse
  rwa [List.length_reverse] at h

theorem commonSuffixLen_le_right (x y : List Char) :
    commonSuffixLen x y ≤ y.length := by
  have h := commonPrefixLen_le_right x.reverse y.reverse
  rwa [List.length_reverse] at h

theorem commonSuffixLen_self (x : List Char) : commonSuffixLen x x = x.length := by
  rw [commonSuffixLen, commonPrefixLen_self, List.length_reverse]

theorem commonSuffixLen_drop_eq (x y : List Char) :
    x.drop (x.length - commonSuffixLen x y) =
    y.drop (y.length - commonSuffixLen x y) := by
  have h := commonPrefixLen_take_eq x.reverse y.reverse
  rw [List.take_reverse, List.take_reverse] at h
  exact List.reverse_inj.mp h

/-- The autojunk test of `SequenceMatcher.__chain_b`: with the default
`autojunk=True`, an element of `b` is popular — and is purged from the
position index `b2j` — when `b` has at least 200 elements and the
element occurs more than `len(b) // 100 + 1` times in `b`. -/
def isPopular (b : List Char) (c : Char) : Bool :=
  decide (200 ≤ b.length) && decide (b.length / 100 + 1 < b.count c)

/-- Length of the matching run at the start of two sequences all of
whose `b`-side elements are non-popular: exactly the runs the `j2len`
chain of `find_longest_match` can accumulate, since it only walks
positions still present in `b2j`. -/
def coreLen (P : Char → Bool) : List Char → List Char → Nat
  | x :: xs, y :: ys =>
    if x = y ∧ P y = false then coreLen P xs ys + 1 else 0
  | _, _ => 0

theorem coreLen_nil_left (P : Char → Bool) (y : List Char) : coreLen P [] y = 0 := by
  cases y <;> rfl

theorem coreLen_nil_right (P : Char → Bool) (x : List Char) : coreLen P x [] = 0 := by
  cases x <;> rfl

theorem coreLen_le_left (P : Char → Bool) :
    ∀ (a b : List Char), coreLen P a b ≤ a.length := by
  intro a
  induction a with
  | nil => intro b; rw [coreLen_nil_left]; exact Nat.zero_le _
  | cons x xs ih =>
    intro b
    cases b with
    | nil => rw [coreLen_nil_right]; exact Nat.zero_le _
    | cons y ys =>
      simp only [coreLen, List.length_cons]
      by_cases h : x = y ∧ P y = false
      · rw [if_pos h]
        have := ih ys
        omega
      · rw [if_neg h]
        omega

theorem coreLen_le_right (P : Char → Bool) :
    ∀ (a b : List Char), coreLen P a b ≤ b.length := by
  intro a
  induction a with
  | nil => intro b; rw [coreLen_nil_left]; exact Nat.zero_le _
  | cons x xs ih =>
    intro b
    cases b with
    | nil => rw [coreLen_nil_right]; exact Nat.zero_le _
    | cons y ys =>
      simp only [coreLen, List.length_cons]
      by_cases h : x = y ∧ P y = false
      · rw [if_pos h]
        have := ih ys
        omega
      · rw [if_neg h]
        omega

theorem coreLen_take_eq (P : Char → Bool) : ∀ (a b : List Char),
    a.take (coreLen P a b) = b.take (coreLen P a b) := by
  intro a
  induction a with
  | nil => intro b; rw [coreLen_nil_left]; rfl
  | cons x xs ih =>
    intro b
    cases b with
    | nil => rw [coreLen_nil_right]; rfl
    | cons y ys =>
      simp only [coreLen]
      by_cases h : x = y ∧ P y = false
      · rw [if_pos h]
        simp only [List.take_succ_cons]
        rw [ih ys, h.1]
      · rw [if_neg h]
        rfl

theorem coreLen_le_diag_left (P : Char → Bool) :
    ∀ (x y : List Char), coreLen P x y ≤ coreLen P x x := by
  intro x
  induction x with
  | nil => intro y; rw [coreLen_nil_left]; exact Nat.zero_le _
  | cons c cs ih =>
    intro y
    cases y with
    | nil => rw [coreLen_nil_right]; exact Nat.zero_le _
    | cons d ds =>
      simp only [coreLen]
      by_cases h : c = d ∧ P d = false
      · rw [if_pos h]
        have hc : P c = false := by rw [h.1]; exact h.2
        rw [if_pos (show True ∧ P c = false from ⟨trivial, hc⟩)]
        have := ih ds
        omega
      · rw [if_neg h]
        exact Nat.zero_le _

theorem coreLen_le_diag_right (P : Char → Bool) :
    ∀ (x y : List Char), coreLen P x y ≤ coreLen P y y := by
  intro x
  induction x with
  | nil => intro y; rw [coreLen_nil_left]; exact Nat.zero_le _
  | cons c cs ih =>
    intro y
    cases y with
    | nil => rw [coreLen_nil_right]; exact Nat.zero_le _
    | cons d ds =>
      simp only [coreLen]
      by_cases h : c = d ∧ P d = false
      · rw [if_pos h]
        rw [if_pos (show True ∧ P d = false from ⟨trivial, h.2⟩)]
        have := ih ds
        omega
      · rw [if_neg h]
        exact Nat.zero_le _

/-- Length of the non-popular matching run of `a[i:]` against `b[j:]`. -/
def coreBlockLen (P : Char → Bool) (a b : List Char) (i j : Nat) : Nat :=
  coreLen P (a.drop i) (b.drop j)

/-- One update step of the core phase of `find_longest_match`: keep the
best `(i, j, size)` triple, replacing it only when a strictly larger run
is found (so the earliest maximal run, in `i` then `j` order, wins). -/
def flmStep (P : Char → Bool) (a b : List Char) (i : Nat)
    (best : Nat × Nat × Nat) (j : Nat) : Nat × Nat × Nat :=
  if best.2.2 < coreBlockLen P a b i j then (i, j, coreBlockLen P a b i j) else best

/-- The core phase of `SequenceMatcher.find_longest_match` (the `j2len`
loop over `b2j`, from which popular elements have been purged): the
longest matching run whose `b`-side elements are all non-popular,
earliest in `a`, then earliest in `b`; `(0, 0, 0)` when there is none. -/
def flmCore (P : Char → Bool) (a b : List Char) : Nat × Nat × Nat :=
  (List.range a.length).foldl
    (fun best i => (List.range b.length).foldl (flmStep P a b i) best) (0, 0, 0)

/-- Invariant carried by the `find_longest_match` core fold. -/
def FlmGood (P : Char → Bool) (a b : List Char) (best : Nat × Nat × Nat) : Prop :=
  best = (0, 0, 0) ∨
    (best.1 < a.length ∧ best.2.1 < b.length ∧
      coreBlockLen P a b best.1 best.2.1 = best.2.2 ∧ best.2.2 ≠ 0)

theorem flmInner (P : Char → Bool) (a b : List Char) (i : Nat) (hi : i < a.length) :
    ∀ (l : List Nat) (best : Nat × Nat × Nat), (∀ j ∈ l, j < b.length) →
      FlmGood P a b best →
      FlmGood P a b (l.foldl (flmStep P a b i) best) ∧
      best.2.2 ≤ (l.foldl (flmStep P a b i) best).2.2 ∧
      (∀ j ∈ l, coreBlockLen P a b i j ≤ (l.foldl (flmStep P a b i) best).2.2) := by
  intro l
  induction l with
  | nil => intro best _ hgood; exact ⟨hgood, le_refl _, by simp⟩
  | cons j js ih =>
    intro best hmem hgood
    simp only [List.foldl_cons]
    have hstep : FlmGood P a b (flmStep P a b i best j) ∧
        best.2.2 ≤ (flmStep P a b i best j).2.2 ∧
        coreBlockLen P a b i j ≤ (flmStep P a b i best j).2.2 := by
      rw [flmStep]
      by_cases h : best.2.2 < coreBlockLen P a b i j
      · simp only [h, if_pos]
        refine ⟨Or.inr ⟨hi, hmem j (List.mem_cons_self _ _), rfl, ?_⟩, ?_, ?_⟩
        · show coreBlockLen P a b i j ≠ 0
          omega
        · show best.2.2 ≤ coreBlockLen P a b i j
          omega
        · show coreBlockLen P a b i j ≤ coreBlockLen P a b i j
          exact le_refl _
      · simp only [h, if_neg, not_false_iff]
        exact ⟨hgood, le_refl _, by omega⟩
    obtain ⟨hg2, hm2, hj2⟩ := hstep
    obtain ⟨hg3, hm3, hj3⟩ := ih (flmStep P a b i best j)
      (fun x hx => hmem x (List.mem_cons_of_mem _ hx)) hg2
    refine ⟨hg3, le_trans hm2 hm3, ?_⟩
    intro x hx
    rcases List.mem_cons.mp hx with hxj | hxjs
    · subst hxj; exact le_trans hj2 hm3
    · exact hj3 x hxjs

theorem flmOuter (P : Char → Bool) (a b : List Char) :
    ∀ (l : List Nat) (best : Nat × Nat × Nat), (∀ i ∈ l, i < a.length) →
      FlmGood P a b best →
      FlmGood P a b (l.foldl (fun best i => (List.range b.length).foldl (flmStep P a b i) best) best) ∧
      best.2.2 ≤ (l.foldl (fun best i => (List.range b.length).foldl (flmStep P a b i) best) best).2.2 ∧
      (∀ i ∈ l, ∀ j, j < b.length →
        coreBlockLen P a b i j ≤ (l.foldl (fun best i => (List.range b.length).foldl (flmStep P a b i) best) best).2.2) := by
  intro l
  induction l with
  | nil => intro best _ hgood; exact ⟨hgood, le_refl _, by simp⟩
  | cons i is ih =>
    intro best hmem hgood
    simp only [List.foldl_cons]
    have hi : i < a.length := hmem i (List.mem_cons_self _ _)
    obtain ⟨hg2, hm2, hj2⟩ := flmInner P a b i hi (List.range b.length) best
      (fun j hj => List.mem_range.mp hj) hgood
    obtain ⟨hg3, hm3, hj3⟩ := ih ((List.range b.length).foldl (flmStep P a b i) best)
      (fun x hx => hmem x (List.mem_cons_of_mem _ hx)) hg2
    refine ⟨hg3, le_trans hm2 hm3, ?_⟩
    intro x hx j hj
    rcases List.mem_cons.mp hx with hxi | hxis
    · subst hxi
      exact le_trans (hj2 j (List.mem_range.mpr hj)) hm3
    · exact hj3 x hxis j hj

theorem flmCore_good (P : Char → Bool) (a b : List Char) :
    FlmGood P a b (flmCore P a b) := by
  have := flmOuter P a b (List.range a.length) (0, 0, 0)
    (fun i hi => List.mem_range.mp hi) (Or.inl rfl)
  exact this.1

theorem flmCore_bounds (P : Char → Bool) (a b : List Char) :
    (flmCore P a b).1 + (flmCore P a b).2.2 ≤ a.length ∧
    (flmCore P a b).2.1 + (flmCore P a b).2.2 ≤ b.length := by
  rcases flmCore_good P a b with h | h
  · rw [h]; simp
  · obtain ⟨h1, h2, h3, _⟩ := h
    have ha := coreLen_le_left P (a.drop (flmCore P a b).1) (b.drop (flmCore P a b).2.1)
    have hbb := coreLen_le_right P (a.drop (flmCore P a b).1) (b.drop (flmCore P a b).2.1)
    rw [List.length_drop] at ha hbb
    rw [coreBlockLen] at h3
    omega

theorem flmCore_nil_right (P : Char → Bool) (a : List Char) :
    flmCore P a [] = (0, 0, 0) := by
  rw [flmCore]
  generalize List.range a.length = l
  induction l with
  | nil => rfl
  | cons x xs ih =>
    rw [List.foldl_cons]
    exact ih

/-- A fold of `flmStep` moves nothing when every candidate run is no
longer than the best already held. -/
theorem foldl_flmStep_fixed (P : Char → Bool) (a b : List Char) (i : Nat) :
    ∀ (l : List Nat) (best : Nat × Nat × Nat),
      (∀ j ∈ l, coreBlockLen P a b i j ≤ best.2.2) →
      l.foldl (flmStep P a b i) best = best := by
  intro l
  induction l with
  | nil => intro best _; rfl
  | cons j js ih =>
    intro best hle
    simp only [List.foldl_cons]
    have hnot : ¬ best.2.2 < coreBlockLen P a b i j := by
      have := hle j (List.mem_cons_self _ _)
      omega
    have hstep : flmStep P a b i best j = best := by
      rw [flmStep, if_neg hnot]
    rw [hstep]
    exact ih best (fun x hx => hle x (List.mem_cons_of_mem _ hx))

/-- On the diagonal run `flmCore P a a`, the best triple is either still
the initial `(0, 0, 0)` or lies on the diagonal. -/
def DiagOrZero (best : Nat × Nat × Nat) : Prop :=
  best = (0, 0, 0) ∨ best.1 = best.2.1

theorem row_diag (P : Char → Bool) (a : List Char) (i : Nat) (hi : i < a.length)
    (best : Nat × Nat × Nat) (hd : DiagOrZero best)
    (hprev : ∀ t, t < i → coreBlockLen P a a t t ≤ best.2.2) :
    DiagOrZero ((List.range a.length).foldl (flmStep P a a i) best) ∧
    ∀ t, t < i + 1 →
      coreBlockLen P a a t t ≤
        ((List.range a.length).foldl (flmStep P a a i) best).2.2 := by
  have hsplit : a.length = i + 1 + (a.length - (i + 1)) := by omega
  rw [hsplit, List.range_add, List.foldl_append, List.range_succ, List.foldl_append]
  simp only [List.foldl_cons, List.foldl_nil]
  have h0 : (List.range i).foldl (flmStep P a a i) best = best := by
    apply foldl_flmStep_fixed
    intro j hj
    have hji := List.mem_range.mp hj
    exact le_trans (coreLen_le_diag_right P (a.drop i) (a.drop j)) (hprev j hji)
  rw [h0]
  set best1 := flmStep P a a i best i with hb1
  have hk1a : coreBlockLen P a a i i ≤ best1.2.2 := by
    rw [hb1, flmStep]
    by_cases hcc : best.2.2 < coreBlockLen P a a i i
    · rw [if_pos hcc]
    · rw [if_neg hcc]
      omega
  have hk1b : best.2.2 ≤ best1.2.2 := by
    rw [hb1, flmStep]
    by_cases hcc : best.2.2 < coreBlockLen P a a i i
    · rw [if_pos hcc]
      show best.2.2 ≤ coreBlockLen P a a i i
      omega
    · rw [if_neg hcc]
  have hdiag1 : DiagOrZero best1 := by
    rw [hb1, flmStep]
    by_cases hcc : best.2.2 < coreBlockLen P a a i i
    · rw [if_pos hcc]
      exact Or.inr rfl
    · rw [if_neg hcc]
      exact hd
  have hrest : (List.map (fun x => i + 1 + x) (List.range (a.length - (i + 1)))).foldl
      (flmStep P a a i) best1 = best1 := by
    apply foldl_flmStep_fixed
    intro j hj
    rcases List.mem_map.mp hj with ⟨t, _, rfl⟩
    exact le_trans (coreLen_le_diag_left P (a.drop i) (a.drop (i + 1 + t))) hk1a
  rw [hrest]
  refine ⟨hdiag1, ?_⟩
  intro t ht
  have hcase : t < i ∨ t = i := by omega
  rcases hcase with h | h
  · exact le_trans (hprev t h) hk1b
  · subst h
    exact hk1a

theorem flmCore_self_aux (P : Char → Bool) (a : List Char) :
    ∀ n, n ≤ a.length →
      DiagOrZero ((List.range n).foldl
        (fun best i => (List.range a.length).foldl (flmStep P a a i) best) (0, 0, 0)) ∧
      ∀ t, t < n → coreBlockLen P a a t t ≤
        ((List.range n).foldl
          (fun best i => (List.range a.length).foldl (flmStep P a a i) best) (0, 0, 0)).2.2 := by
  intro n
  induction n with
  | zero =>
    intro h0
    exact ⟨Or.inl rfl, fun t ht => absurd ht (Nat.not_lt_zero t)⟩
  | succ n ih =>
    intro hn
    have hx := ih (by omega)
    rw [List.range_succ, List.foldl_append]
    simp only [List.foldl_cons, List.foldl_nil]
    exact row_diag P a n (by omega) _ hx.1 hx.2

theorem flmCore_self_diag (P : Char → Bool) (a : List Char) :
    DiagOrZero (flmCore P a a) := by
  have h := (flmCore_self_aux P a a.length (le_refl _)).1
  exact h

/-- `SequenceMatcher.find_longest_match` over whole sequences with
popular set `P`: the best non-popular core `(i, j, k)` from `flmCore`,
extended left over the longest common suffix of the prefixes and right
over the longest common prefix of the remainders (the two non-junk
extension `while` loops; the junk loops are no-ops since `bjunk` is
empty). -/
def flm (P : Char → Bool) (a b : List Char) : Nat × Nat × Nat :=
  ((flmCore P a b).1 -
      commonSuffixLen (a.take (flmCore P a b).1) (b.take (flmCore P a b).2.1),
    (flmCore P a b).2.1 -
      commonSuffixLen (a.take (flmCore P a b).1) (b.take (flmCore P a b).2.1),
    (flmCore P a b).2.2 +
      commonSuffixLen (a.take (flmCore P a b).1) (b.take (flmCore P a b).2.1) +
      commonPrefixLen (a.drop ((flmCore P a b).1 + (flmCore P a b).2.2))
        (b.drop ((flmCore P a b).2.1 + (flmCore P a b).2.2)))

theorem flm_fst (P : Char → Bool) (a b : List Char) :
    (flm P a b).1 = (flmCore P a b).1 -
      commonSuffixLen (a.take (flmCore P a b).1) (b.take (flmCore P a b).2.1) := rfl

theorem flm_snd (P : Char → Bool) (a b : List Char) :
    (flm P a b).2.1 = (flmCore P a b).2.1 -
      commonSuffixLen (a.take (flmCore P a b).1) (b.take (flmCore P a b).2.1) := rfl

theorem flm_size (P : Char → Bool) (a b : List Char) :
    (flm P a b).2.2 = (flmCore P a b).2.2 +
      commonSuffixLen (a.take (flmCore P a b).1) (b.take (flmCore P a b).2.1) +
      commonPrefixLen (a.drop ((flmCore P a b).1 + (flmCore P a b).2.2))
        (b.drop ((flmCore P a b).2.1 + (flmCore P a b).2.2)) := rfl

theorem flm_comp (P : Char → Bool) (a b : List Char) (ic jc kc : Nat)
    (hc : flmCore P a b = (ic, jc, kc)) :
    flm P a b = (ic - commonSuffixLen (a.take ic) (b.take jc),
      jc - commonSuffixLen (a.take ic) (b.take jc),
      kc + commonSuffixLen (a.take ic) (b.take jc) +
        commonPrefixLen (a.drop (ic + kc)) (b.drop (jc + kc))) := by
  have h1 : (flmCore P a b).1 = ic := by rw [hc]
  have h2 : (flmCore P a b).2.1 = jc := by rw [hc]
  have h3 : (flmCore P a b).2.2 = kc := by rw [hc]
  rw [Prod.ext_iff, Prod.ext_iff]
  exact ⟨by rw [flm_fst, h1, h2], by rw [flm_snd, h1, h2], by rw [flm_size, h1, h2, h3]⟩

theorem flm_bounds (P : Char → Bool) (a b : List Char) :
    (flm P a b).1 + (flm P a b).2.2 ≤ a.length ∧
    (flm P a b).2.1 + (flm P a b).2.2 ≤ b.length := by
  have hc := flmCore_bounds P a b
  have he1 := commonSuffixLen_le_left (a.take (flmCore P a b).1) (b.take (flmCore P a b).2.1)
  have he2 := commonSuffixLen_le_right (a.take (flmCore P a b).1) (b.take (flmCore P a b).2.1)
  have hf1 := commonPrefixLen_le_left (a.drop ((flmCore P a b).1 + (flmCore P a b).2.2))
    (b.drop ((flmCore P a b).2.1 + (flmCore P a b).2.2))
  have hf2 := commonPrefixLen_le_right (a.drop ((flmCore P a b).1 + (flmCore P a b).2.2))
    (b.drop ((flmCore P a b).2.1 + (flmCore P a b).2.2))
  simp only [List.length_take, List.length_drop, inf_eq_min] at he1 he2 hf1 hf2
  rw [flm_fst, flm_snd, flm_size]
  constructor <;> omega

theorem flm_pos (P : Char → Bool) (a b : List Char) (h : (flm P a b).2.2 ≠ 0) :
    (flm P a b).1 < a.length ∧ (flm P a b).2.1 < b.length := by
  have hb := flm_bounds P a b
  omega

/-- Gluing lemma for the extended block: if the core `a[ic : ic+kc] =
b[jc : jc+kc]` matches, so does the block extended by the common suffix
of the prefixes and the common prefix of the remainders. -/
theorem glue_take_eq (a b : List Char) (ic jc kc e f : Nat)
    (hia : ic + kc ≤ a.length) (hjb : jc + kc ≤ b.length)
    (he : commonSuffixLen (a.take ic) (b.take jc) = e)
    (hf : commonPrefixLen (a.drop (ic + kc)) (b.drop (jc + kc)) = f)
    (hmid : (a.drop ic).take kc = (b.drop jc).take kc) :
    (a.drop (ic - e)).take (kc + e + f) = (b.drop (jc - e)).take (kc + e + f) := by
  have heic : e ≤ ic := by
    have h := commonSuffixLen_le_left (a.take ic) (b.take jc)
    rw [he] at h
    simp only [List.length_take, inf_eq_min] at h
    omega
  have hejc : e ≤ jc := by
    have h := commonSuffixLen_le_right (a.take ic) (b.take jc)
    rw [he] at h
    simp only [List.length_take, inf_eq_min] at h
    omega
  have hleft : (a.drop (ic - e)).take e = (b.drop (jc - e)).take e := by
    have h := commonSuffixLen_drop_eq (a.take ic) (b.take jc)
    rw [he] at h
    have hla : (a.take ic).length = ic := by
      simp only [List.length_take, inf_eq_min]
      omega
    have hlb : (b.take jc).length = jc := by
      simp only [List.length_take, inf_eq_min]
      omega
    rw [hla, hlb, List.drop_take, List.drop_take] at h
    have h1 : ic - (ic - e) = e := by omega
    have h2 : jc - (jc - e) = e := by omega
    rw [h1, h2] at h
    exact h
  have hmidright : (a.drop ic).take (kc + f) = (b.drop jc).take (kc + f) := by
    rw [List.take_add, List.take_add, hmid]
    congr 1
    rw [List.drop_drop, List.drop_drop]
    have h := commonPrefixLen_take_eq (a.drop (ic + kc)) (b.drop (jc + kc))
    rw [hf] at h
    exact h
  have hsum : kc + e + f = e + (kc + f) := by omega
  have hA : List.take (e + (kc + f)) (List.drop (ic - e) a) =
      List.take e (List.drop (ic - e) a) ++
        List.take (kc + f) (List.drop e (List.drop (ic - e) a)) := by
    rw [List.take_add]
  have hB : List.take (e + (kc + f)) (List.drop (jc - e) b) =
      List.take e (List.drop (jc - e) b) ++
        List.take (kc + f) (List.drop e (List.drop (jc - e) b)) := by
    rw [List.take_add]
  rw [hsum, hA, hB, hleft]
  congr 1
  rw [List.drop_drop, List.drop_drop]
  have h1 : ic - e + e = ic := by omega
  have h2 : jc - e + e = jc := by omega
  rw [h1, h2]
  exact hmidright

/-- The matched block really matches: `a[i : i+k] = b[j : j+k]` for the
triple returned by `find_longest_match`. -/
theorem flm_take_eq (P : Char → Bool) (a b : List Char) :
    (a.drop (flm P a b).1).take (flm P a b).2.2 =
    (b.drop (flm P a b).2.1).take (flm P a b).2.2 := by
  have hb := flmCore_bounds P a b
  have hmid : (a.drop (flmCore P a b).1).take (flmCore P a b).2.2 =
      (b.drop (flmCore P a b).2.1).take (flmCore P a b).2.2 := by
    rcases flmCore_good P a b with h | h
    · have h1 : (flmCore P a b).2.2 = 0 := by rw [h]
      rw [h1]
      rfl
    · have h3 : coreBlockLen P a b (flmCore P a b).1 (flmCore P a b).2.1 =
          (flmCore P a b).2.2 := h.2.2.1
      rw [coreBlockLen] at h3
      rw [← h3]
      exact coreLen_take_eq P _ _
  rw [flm_fst, flm_snd, flm_size]
  exact glue_take_eq a b (flmCore P a b).1 (flmCore P a b).2.1 (flmCore P a b).2.2
    _ _ hb.1 hb.2 rfl rfl hmid

theorem flm_nil_left (P : Char → Bool) (b : List Char) : flm P [] b = (0, 0, 0) := by
  have hc : flmCore P [] b = (0, 0, 0) := rfl
  rw [flm_comp P [] b 0 0 0 hc]
  have h1 : commonSuffixLen (List.take 0 ([] : List Char)) (b.take 0) = 0 := rfl
  have h2 : commonPrefixLen (List.drop (0 + 0) ([] : List Char)) (b.drop (0 + 0)) = 0 :=
    commonPrefixLen_nil_left _
  rw [h1, h2]

theorem flm_nil_right (P : Char → Bool) (a : List Char) : flm P a [] = (0, 0, 0) := by
  rw [flm_comp P a [] 0 0 0 (flmCore_nil_right P a)]
  have h1 : commonSuffixLen (a.take 0) (List.take 0 ([] : List Char)) = 0 := rfl
  have h2 : commonPrefixLen (a.drop (0 + 0)) (List.drop (0 + 0) ([] : List Char)) = 0 :=
    commonPrefixLen_nil_right _
  rw [h1, h2]

/-- On a self-comparison the extended block is the whole sequence: the
core lands on the diagonal (or stays empty), and the extensions — which
cross popular elements freely — stretch it to both ends.  In particular
autojunk never degrades an exact self-match. -/
theorem flm_self (P : Char → Bool) (a : List Char) : flm P a a = (0, 0, a.length) := by
  rcases flmCore_good P a a with h | h
  · rw [flm_comp P a a 0 0 0 h]
    have h1 : commonSuffixLen (a.take 0) (a.take 0) = 0 := rfl
    have h2 : commonPrefixLen (a.drop (0 + 0)) (a.drop (0 + 0)) = a.length := by
      rw [commonPrefixLen_self, List.length_drop]
      omega
    rw [h1, h2]
    simp only [Prod.mk.injEq]
    exact ⟨trivial, trivial, by omega⟩
  · have hdz := flmCore_self_diag P a
    have hk : (flmCore P a a).2.2 ≠ 0 := h.2.2.2
    have hdg : (flmCore P a a).1 = (flmCore P a a).2.1 := by
      rcases hdz with h0 | hdd
      · exfalso
        apply hk
        rw [h0]
      · exact hdd
    have hb := flmCore_bounds P a a
    have hsle : (flmCore P a a).1 ≤ a.length := by omega
    have he : commonSuffixLen (a.take (flmCore P a a).1) (a.take (flmCore P a a).2.1) =
        (flmCore P a a).1 := by
      rw [← hdg, commonSuffixLen_self]
      simp only [List.length_take, inf_eq_min]
      omega
    have hf : commonPrefixLen (a.drop ((flmCore P a a).1 + (flmCore P a a).2.2))
        (a.drop ((flmCore P a a).2.1 + (flmCore P a a).2.2)) =
        a.length - ((flmCore P a a).1 + (flmCore P a a).2.2) := by
      rw [← hdg, commonPrefixLen_self, List.length_drop]
    rw [Prod.ext_iff, Prod.ext_iff]
    refine ⟨?_, ?_, ?_⟩
    · rw [flm_fst, he]
      show (flmCore P a a).1 - (flmCore P a a).1 = 0
      omega
    · rw [flm_snd, he]
      show (flmCore P a a).2.1 - (flmCore P a a).1 = 0
      omega
    · rw [flm_size, he, hf]
      show (flmCore P a a).2.2 + (flmCore P a a).1 +
        (a.length - ((flmCore P a a).1 + (flmCore P a a).2.2)) = a.length
      omega

/-- Total size of all matching blocks (the `M` of `ratio() = 2*M/T`),
computed exactly as `get_matching_blocks` does: take the longest matching
block and recurse on the left and right remainders, with the popular
predicate `P` fixed from the full second sequence.  The `fuel` argument
makes the recursion structural; `matchesTotal` supplies enough fuel. -/
def matchesTotalF (P : Char → Bool) : Nat → List Char → List Char → Nat
  | 0, _, _ => 0
  | fuel + 1, a, b =>
    match h : flm P a b with
    | (i, j, k) =>
      if k = 0 then 0
      else
        matchesTotalF P fuel (a.take i) (b.take j) + k +
        matchesTotalF P fuel (a.drop (i + k)) (b.drop (j + k))

/-- Total matching-block size of two sequences, the popular set being
computed from the second sequence (`b`, the query word) as `set_seq2`
does. -/
def matchesTotal (a b : List Char) : Nat :=
  matchesTotalF (isPopular b) (a.length + b.length) a b

theorem matchesTotalF_succ (P : Char → Bool) (fuel : Nat) (a b : List Char) :
    matchesTotalF P (fuel + 1) a b =
      if (flm P a b).2.2 = 0 then 0
      else
        matchesTotalF P fuel (a.take (flm P a b).1) (b.take (flm P a b).2.1) + (flm P a b).2.2 +
        matchesTotalF P fuel (a.drop ((flm P a b).1 + (flm P a b).2.2))
          (b.drop ((flm P a b).2.1 + (flm P a b).2.2)) := by
  rw [matchesTotalF]

theorem matchesTotalF_le_min (P : Char → Bool) (fuel : Nat) :
    ∀ (a b : List Char), matchesTotalF P fuel a b ≤ min a.length b.length := by
  induction fuel with
  | zero => intro a b; simp [matchesTotalF]
  | succ fuel ih =>
    intro a b
    rw [matchesTotalF_succ]
    by_cases h : (flm P a b).2.2 = 0
    · simp [h]
    · simp only [h, if_neg, not_false_iff]
      have h1 := ih (a.take (flm P a b).1) (b.take (flm P a b).2.1)
      have h2 := ih (a.drop ((flm P a b).1 + (flm P a b).2.2))
        (b.drop ((flm P a b).2.1 + (flm P a b).2.2))
      simp only [List.length_take, List.length_drop, inf_eq_min] at h1 h2
      have hb := flm_bounds P a b
      have hp := flm_pos P a b h
      omega

/-- The characters matched by the block decomposition form a common
sub-multiset of the two sequences. -/
theorem matchesTotalF_sub_multiset (P : Char → Bool) (fuel : Nat) :
    ∀ (a b : List Char), ∃ m : Multiset Char,
      m ≤ (a : Multiset Char) ∧ m ≤ (b : Multiset Char) ∧
      Multiset.card m = matchesTotalF P fuel a b := by
  induction fuel with
  | zero =>
    intro a b
    exact ⟨0, zero_le _, zero_le _, by simp [matchesTotalF]⟩
  | succ fuel ih =>
    intro a b
    rw [matchesTotalF_succ]
    by_cases h : (flm P a b).2.2 = 0
    · simp only [h, if_pos]
      exact ⟨0, zero_le _, zero_le _, by simp⟩
    · simp only [h, if_neg, not_false_iff]
      obtain ⟨m1, hm1a, hm1b, hm1c⟩ := ih (a.take (flm P a b).1) (b.take (flm P a b).2.1)
      obtain ⟨m2, hm2a, hm2b, hm2c⟩ := ih (a.drop ((flm P a b).1 + (flm P a b).2.2))
        (b.drop ((flm P a b).2.1 + (flm P a b).2.2))
      refine ⟨m1 + ↑((a.drop (flm P a b).1).take (flm P a b).2.2) + m2, ?_, ?_, ?_⟩
      · have hsplit : (a : Multiset Char) =
            ↑(a.take (flm P a b).1) + ↑((a.drop (flm P a b).1).take (flm P a b).2.2) +
            ↑(a.drop ((flm P a b).1 + (flm P a b).2.2)) := by
          have h1 : a = a.take (flm P a b).1 ++
              ((a.drop (flm P a b).1).take (flm P a b).2.2 ++
               a.drop ((flm P a b).1 + (flm P a b).2.2)) := by
            conv_lhs => rw [← List.take_append_drop (flm P a b).1 a]
            congr 1
            conv_lhs => rw [← List.take_append_drop (flm P a b).2.2 (a.drop (flm P a b).1)]
            congr 1
            rw [List.drop_drop]
          conv_lhs => rw [h1]
          rw [Multiset.coe_add, Multiset.coe_add, List.append_assoc]
        rw [hsplit]
        exact add_le_add (add_le_add hm1a (le_refl _)) hm2a
      · have hsplit : (b : Multiset Char) =
            ↑(b.take (flm P a b).2.1) + ↑((b.drop (flm P a b).2.1).take (flm P a b).2.2) +
            ↑(b.drop ((flm P a b).2.1 + (flm P a b).2.2)) := by
          have h1 : b = b.take (flm P a b).2.1 ++
              ((b.drop (flm P a b).2.1).take (flm P a b).2.2 ++
               b.drop ((flm P a b).2.1 + (flm P a b).2.2)) := by
            conv_lhs => rw [← List.take_append_drop (flm P a b).2.1 b]
            congr 1
            conv_lhs => rw [← List.take_append_drop (flm P a b).2.2 (b.drop (flm P a b).2.1)]
            congr 1
            rw [List.drop_drop]
          conv_lhs => rw [h1]
          rw [Multiset.coe_add, Multiset.coe_add, List.append_assoc]
        rw [hsplit, flm_take_eq P a b]
        exact add_le_add (add_le_add hm1b (le_refl _)) hm2b
      · have hklen : ((a.drop (flm P a b).1).take (flm P a b).2.2).length = (flm P a b).2.2 := by
          rw [List.length_take, List.length_drop]
          have := (flm_bounds P a b).1
          omega
        simp only [Multiset.card_add, Multiset.coe_card, hm1c, hm2c, hklen]

/-- If the matched total equals both lengths, the sequences are equal:
the blocks then tile both sequences completely and match pointwise. -/
theorem matchesTotalF_eq_len (P : Char → Bool) (fuel : Nat) :
    ∀ (a b : List Char), matchesTotalF P fuel a b = a.length →
      matchesTotalF P fuel a b = b.length → a = b := by
  induction fuel with
  | zero =>
    intro a b ha hb
    simp only [matchesTotalF] at ha hb
    rw [List.eq_nil_of_length_eq_zero ha.symm, List.eq_nil_of_length_eq_zero hb.symm]
  | succ fuel ih =>
    intro a b ha hb
    rw [matchesTotalF_succ] at ha hb
    by_cases h : (flm P a b).2.2 = 0
    · simp only [h, if_pos] at ha hb
      rw [List.eq_nil_of_length_eq_zero ha.symm, List.eq_nil_of_length_eq_zero hb.symm]
    · simp only [h, if_neg, not_false_iff] at ha hb
      have hb1 := flm_bounds P a b
      have hp := flm_pos P a b h
      have ht1 := matchesTotalF_le_min P fuel (a.take (flm P a b).1) (b.take (flm P a b).2.1)
      have ht2 := matchesTotalF_le_min P fuel (a.drop ((flm P a b).1 + (flm P a b).2.2))
        (b.drop ((flm P a b).2.1 + (flm P a b).2.2))
      simp only [List.length_take, List.length_drop, inf_eq_min] at ht1 ht2
      -- the sandwich forces the left part to fill both takes and the right
      -- part to fill both drops
      have hij : (flm P a b).1 = (flm P a b).2.1 := by omega
      have hleft1 : matchesTotalF P fuel (a.take (flm P a b).1) (b.take (flm P a b).2.1) =
          (a.take (flm P a b).1).length := by
        rw [List.length_take]
        omega
      have hleft2 : matchesTotalF P fuel (a.take (flm P a b).1) (b.take (flm P a b).2.1) =
          (b.take (flm P a b).2.1).length := by
        rw [List.length_take]
        omega
      have hright1 : matchesTotalF P fuel (a.drop ((flm P a b).1 + (flm P a b).2.2))
          (b.drop ((flm P a b).2.1 + (flm P a b).2.2)) =
          (a.drop ((flm P a b).1 + (flm P a b).2.2)).length := by
        rw [List.length_drop]
        omega
      have hright2 : matchesTotalF P fuel (a.drop ((flm P a b).1 + (flm P a b).2.2))
          (b.drop ((flm P a b).2.1 + (flm P a b).2.2)) =
          (b.drop ((flm P a b).2.1 + (flm P a b).2.2)).length := by
        rw [List.length_drop]
        omega
      have heqleft := ih _ _ hleft1 hleft2
      have heqright := ih _ _ hright1 hright2
      have heqmid := flm_take_eq P a b
      conv_lhs => rw [← List.take_append_drop (flm P a b).1 a]
      conv_rhs => rw [← List.take_append_drop (flm P a b).2.1 b]
      rw [heqleft]
      congr 1
      conv_lhs => rw [← List.take_append_drop (flm P a b).2.2 (a.drop (flm P a b).1)]
      conv_rhs => rw [← List.take_append_drop (flm P a b).2.2 (b.drop (flm P a b).2.1)]
      rw [heqmid, List.drop_drop, List.drop_drop, heqright]

theorem matchesTotalF_nil_left (P : Char → Bool) (fuel : Nat) (b : List Char) :
    matchesTotalF P fuel [] b = 0 := by
  cases fuel with
  | zero => rfl
  | succ fuel =>
    rw [matchesTotalF_succ, flm_nil_left]
    simp

theorem matchesTotalF_nil_right (P : Char → Bool) (fuel : Nat) (a : List Char) :
    matchesTotalF P fuel a [] = 0 := by
  cases fuel with
  | zero => rfl
  | succ fuel =>
    rw [matchesTotalF_succ, flm_nil_right]
    simp

theorem matchesTotalF_succ_self (P : Char → Bool) (fuel : Nat) (a : List Char) :
    matchesTotalF P (fuel + 1) a a = a.length := by
  rw [matchesTotalF_succ, flm_self]
  by_cases h : a.length = 0
  · simp [h]
  · have hproj : ¬ ((0 : Nat), (0 : Nat), a.length).2.2 = 0 := h
    rw [if_neg hproj]
    show matchesTotalF P fuel (a.take 0) (a.take 0) + a.length +
      matchesTotalF P fuel (a.drop (0 + a.length)) (a.drop (0 + a.length)) = a.length
    rw [List.take_zero, matchesTotalF_nil_left]
    have hd : (0 : Nat) + a.length = a.length := by omega
    rw [hd, List.drop_length, matchesTotalF_nil_left]
    omega

theorem matchesTotal_self (a : List Char) : matchesTotal a a = a.length := by
  rw [matchesTotal]
  cases a with
  | nil => rfl
  | cons x xs =>
    have harith : (x :: xs).length + (x :: xs).length =
        (xs.length + xs.length + 1) + 1 := by
      simp only [List.length_cons]
      omega
    rw [harith, matchesTotalF_succ_self]

/-- `quick_ratio`'s matches count: in difflib's own words, "viewing a and
b as multisets, set matches to the cardinality of their intersection".
The dict-based loop difflib uses to compute it is modelled literally as
`quickLoopMatches` below and proved equal (`quickLoopMatches_eq`). -/
def quickMatches (a b : List Char) : Nat :=
  Multiset.card ((a : Multiset Char) ∩ (b : Multiset Char))

/-- difflib's `_calculate_ratio(matches, length)`:
`2.0 * matches / length if length else 1.0`. -/
def mkRatio (m T : Nat) : ℚ := if T = 0 then 1 else 2 * (m : ℚ) / (T : ℚ)

/-- `SequenceMatcher(None, x, word).ratio()`: twice the total matching
block size over the total length. -/
def ratioS (x w : String) : ℚ :=
  mkRatio (matchesTotal x.data w.data) (x.data.length + w.data.length)

/-- `SequenceMatcher.quick_ratio()`, an upper bound on `ratio()`. -/
def quickRatioS (x w : String) : ℚ :=
  mkRatio (quickMatches x.data w.data) (x.data.length + w.data.length)

/-- `SequenceMatcher.real_quick_ratio()`, an upper bound on both. -/
def realQuickRatioS (x w : String) : ℚ :=
  mkRatio (min x.data.length w.data.length) (x.data.length + w.data.length)

theorem matchesTotal_le_quick (a b : List Char) :
    matchesTotal a b ≤ quickMatches a b := by
  obtain ⟨m, hma, hmb, hmc⟩ :=
    matchesTotalF_sub_multiset (isPopular b) (a.length + b.length) a b
  rw [matchesTotal, ← hmc]
  exact Multiset.card_le_card (Multiset.le_inter hma hmb)

theorem quick_le_min (a b : List Char) :
    quickMatches a b ≤ min a.length b.length := by
  rw [quickMatches]
  refine le_min ?_ ?_
  · have := Multiset.card_le_card (Multiset.inter_le_left (a : Multiset Char) ↑b)
    simpa using this
  · have := Multiset.card_le_card (Multiset.inter_le_right (a : Multiset Char) ↑b)
    simpa using this

theorem matchesTotal_le_min (a b : List Char) :
    matchesTotal a b ≤ min a.length b.length :=
  matchesTotalF_le_min _ _ a b

theorem mkRatio_mono {m n T : Nat} (h : m ≤ n) : mkRatio m T ≤ mkRatio n T := by
  rw [mkRatio, mkRatio]
  by_cases hT : T = 0
  · simp [hT]
  · simp only [hT, if_neg, not_false_iff]
    have hTpos : (0 : ℚ) < T := by
      exact_mod_cast Nat.pos_of_ne_zero hT
    gcongr

theorem mkRatio_le_one {m T : Nat} (h : 2 * m ≤ T) : mkRatio m T ≤ 1 := by
  rw [mkRatio]
  by_cases hT : T = 0
  · simp [hT]
  · simp only [hT, if_neg, not_false_iff]
    have hTpos : (0 : ℚ) < T := by
      exact_mod_cast Nat.pos_of_ne_zero hT
    rw [div_le_one hTpos]
    exact_mod_cast h

theorem mkRatio_eq_one {m T : Nat} (h : mkRatio m T = 1) : T = 0 ∨ 2 * m = T := by
  rw [mkRatio] at h
  by_cases hT : T = 0
  · exact Or.inl hT
  · right
    simp only [hT, if_neg, not_false_iff] at h
    have hTne : (T : ℚ) ≠ 0 := by
      exact_mod_cast hT
    rw [div_eq_one_iff_eq hTne] at h
    exact_mod_cast h

theorem ratioS_le_quick (x w : String) : ratioS x w ≤ quickRatioS x w :=
  mkRatio_mono (matchesTotal_le_quick _ _)

theorem quickRatioS_le_real (x w : String) : quickRatioS x w ≤ realQuickRatioS x w :=
  mkRatio_mono (quick_le_min _ _)

theorem ratioS_le_one (x w : String) : ratioS x w ≤ 1 := by
  refine mkRatio_le_one ?_
  have := matchesTotal_le_min x.data w.data
  omega

theorem ratioS_self (q : String) : ratioS q q = 1 := by
  rw [ratioS, matchesTotal_self, mkRatio]
  by_cases h : q.data.length + q.data.length = 0
  · rw [if_pos h]
  · rw [if_neg h]
    have hne : ((q.data.length + q.data.length : Nat) : ℚ) ≠ 0 := by
      exact_mod_cast h
    rw [div_eq_one_iff_eq hne]
    push_cast
    ring

theorem ratioS_eq_one (x w : String) (h : ratioS x w = 1) : x = w := by
  rcases mkRatio_eq_one h with hT | hm
  · have hx : x.data = [] := List.eq_nil_of_length_eq_zero (by omega)
    have hw : w.data = [] := List.eq_nil_of_length_eq_zero (by omega)
    exact String.ext (hx.trans hw.symm)
  · have hmin := matchesTotal_le_min x.data w.data
    have h1 : matchesTotal x.data w.data = x.data.length := by omega
    have h2 : matchesTotal x.data w.data = w.data.length := by omega
    exact String.ext (matchesTotalF_eq_len (isPopular w.data)
      (x.data.length + w.data.length) x.data w.data h1 h2)

/-- The filter of `get_close_matches`: keep candidate `x` when
`s.real_quick_ratio() >= cutoff and s.quick_ratio() >= cutoff and
s.ratio() >= cutoff`. -/
def passesCutoff (x w : String) (c : ℚ) : Bool :=
  decide (c ≤ realQuickRatioS x w) && decide (c ≤ quickRatioS x w) &&
    decide (c ≤ ratioS x w)

/-- The scored survivors, in catalog order: the `(s.ratio(), x)` pairs
`get_close_matches` accumulates in `result`. -/
def scoredCandidates (w : String) (poss : List String) (c : ℚ) : List (ℚ × String) :=
  poss.filterMap (fun x => if passesCutoff x w c then some (ratioS x w, x) else none)

/-- Python's `<` on `(float, str)` tuples: compare ratios, then strings
(code-point lexicographic, which is `List.lt` on the character data). -/
def pairLt (p q : ℚ × String) : Bool :=
  decide (p.1 < q.1 ∨ (p.1 = q.1 ∧ p.2.data < q.2.data))

/-- `heapq.nlargest(n, result)`, documented as
`sorted(iterable, reverse=True)[:n]`. -/
def nlargest (n : Nat) (l : List (ℚ × String)) : List (ℚ × String) :=
  (sortD pairLt l).take n

/-- `difflib.get_close_matches(word, possibilities, n, cutoff)`. -/
def getCloseMatches (word : String) (poss : List String) (n : Nat) (c : ℚ) :
    List String :=
  (nlargest n (scoredCandidates word poss c)).map Prod.snd

/-- The resolver call on line 56 of the source:
`get_close_matches(anime_name, pt.index, n=1, cutoff=0.6)`.  The float
cutoff 0.6 is the exact rational 3/5 here; every ratio is of the form
`2*m/T` for sequence lengths far below the 2^53 scale at which the float
and rational comparisons could disagree, and a ratio exactly equal to 3/5
compares equal to the cutoff in both semantics. -/
def closestMatches (q : String) (names : List String) : List String :=
  getCloseMatches q names 1 (3 / 5)

/-- `ratio() >= cutoff` alone decides the filter: the two quick ratios are
upper bounds on the true ratio. -/
theorem passesCutoff_iff (x w : String) (c : ℚ) :
    passesCutoff x w c = true ↔ c ≤ ratioS x w := by
  rw [passesCutoff]
  simp only [Bool.and_eq_true, decide_eq_true_eq]
  constructor
  · exact fun h => h.2
  · intro h
    exact ⟨⟨le_trans h ((ratioS_le_quick x w).trans (quickRatioS_le_real x w)),
      le_trans h (ratioS_le_quick x w)⟩, h⟩

theorem pairLt_asymm (p q : ℚ × String) (h : pairLt p q = true) : pairLt q p = false := by
  rw [pairLt, decide_eq_true_eq] at h
  rw [pairLt, decide_eq_false_iff_not]
  rcases h with h | ⟨he, hs⟩
  · rintro (h2 | ⟨he2, _⟩)
    · exact absurd h2 (lt_asymm h)
    · exact absurd he2.symm (ne_of_lt h)
  · rintro (h2 | ⟨_, hs2⟩)
    · exact absurd h2 (by rw [he]; exact lt_irrefl _)
    · exact absurd hs2 (lt_asymm hs)

theorem pairLt_trans (p q r : ℚ × String) (h1 : pairLt p q = true)
    (h2 : pairLt q r = true) : pairLt p r = true := by
  rw [pairLt, decide_eq_true_eq] at h1 h2
  rw [pairLt, decide_eq_true_eq]
  rcases h1 with h1 | ⟨he1, hs1⟩
  · rcases h2 with h2 | ⟨he2, _⟩
    · exact Or.inl (lt_trans h1 h2)
    · exact Or.inl (he2 ▸ h1)
  · rcases h2 with h2 | ⟨he2, hs2⟩
    · exact Or.inl (he1 ▸ h2)
    · exact Or.inr ⟨he1.trans he2, lt_trans hs1 hs2⟩

theorem pairLt_conn (p q : ℚ × String) (h1 : pairLt p q = false)
    (h2 : pairLt q p = false) : p = q := by
  rw [pairLt, decide_eq_false_iff_not] at h1 h2
  push_neg at h1 h2
  have he : p.1 = q.1 := le_antisymm h2.1 h1.1
  have hs : p.2.data = q.2.data := le_antisymm (h2.2 he.symm) (h1.2 he)
  obtain ⟨p1, p2⟩ := p
  obtain ⟨q1, q2⟩ := q
  simp only at he hs
  rw [he, String.ext hs]

theorem mem_scoredCandidates (w : String) (poss : List String) (c : ℚ)
    (p : ℚ × String) (h : p ∈ scoredCandidates w poss c) :
    p.2 ∈ poss ∧ p.1 = ratioS p.2 w ∧ c ≤ ratioS p.2 w := by
  rw [scoredCandidates] at h
  rcases List.mem_filterMap.mp h with ⟨x, hx, hfx⟩
  by_cases hp : passesCutoff x w c
  · rw [if_pos hp] at hfx
    cases hfx
    exact ⟨hx, rfl, (passesCutoff_iff x w c).mp hp⟩
  · rw [if_neg hp] at hfx
    cases hfx

theorem mk_mem_scoredCandidates (w : String) (poss : List String) (c : ℚ)
    (x : String) (hx : x ∈ poss) (hr : c ≤ ratioS x w) :
    (ratioS x w, x) ∈ scoredCandidates w poss c := by
  rw [scoredCandidates]
  refine List.mem_filterMap.mpr ⟨x, hx, ?_⟩
  rw [if_pos ((passesCutoff_iff x w c).mpr hr)]

theorem scoredCandidates_eq_nil (w : String) (poss : List String) (c : ℚ) :
    scoredCandidates w poss c = [] ↔ ∀ x ∈ poss, ratioS x w < c := by
  rw [scoredCandidates, List.filterMap_eq_nil_iff]
  constructor
  · intro h x hx
    have := h x hx
    by_cases hp : passesCutoff x w c
    · rw [if_pos hp] at this
      cases this
    · rw [← not_le]
      exact fun hc => hp ((passesCutoff_iff x w c).mpr hc)
  · intro h x hx
    rw [if_neg]
    intro hp
    exact absurd ((passesCutoff_iff x w c).mp hp) (not_le.mpr (h x hx))

theorem sortD_eq_nil (lt : α → α → Bool) (l : List α) :
    sortD lt l = [] ↔ l = [] := by
  constructor
  · intro h
    have := length_sortD lt l
    rw [h] at this
    exact List.eq_nil_of_length_eq_zero this.symm
  · intro h
    rw [h]
    rfl

theorem closestMatches_eq (q : String) (names : List String) :
    closestMatches q names =
      ((sortD pairLt (scoredCandidates q names (3 / 5))).take 1).map Prod.snd := rfl

theorem closestMatches_nil_iff (q : String) (names : List String) :
    closestMatches q names = [] ↔ ∀ x ∈ names, ratioS x q < 3 / 5 := by
  rw [closestMatches_eq, ← scoredCandidates_eq_nil q names (3 / 5),
    ← sortD_eq_nil pairLt (scoredCandidates q names (3 / 5))]
  cases hs : sortD pairLt (scoredCandidates q names (3 / 5)) with
  | nil => simp
  | cons p t => simp

theorem closestMatches_shape (q : String) (names : List String) :
    closestMatches q names = [] ∨ ∃ m, closestMatches q names = [m] := by
  rw [closestMatches_eq]
  cases hs : sortD pairLt (scoredCandidates q names (3 / 5)) with
  | nil => exact Or.inl rfl
  | cons p t => exact Or.inr ⟨p.2, rfl⟩

theorem closestMatches_head (q : String) (names : List String) (m : String)
    (h : closestMatches q names = [m]) :
    ∃ p t, sortD pairLt (scoredCandidates q names (3 / 5)) = p :: t ∧ p.2 = m := by
  rw [closestMatches_eq] at h
  cases hs : sortD pairLt (scoredCandidates q names (3 / 5)) with
  | nil => rw [hs] at h; cases h
  | cons p t =>
    rw [hs] at h
    simp only [List.take_succ_cons, List.take_zero, List.map_cons, List.map_nil,
      List.cons.injEq] at h
    exact ⟨p, t, rfl, h.1⟩

/-- The resolved match: in the catalog, above the cutoff, and maximal with
respect to the `(ratio, name)` tuple order (ties at the top ratio go to
the code-point-lexicographically greatest name). -/
theorem closestMatches_spec (q : String) (names : List String) (m : String)
    (h : closestMatches q names = [m]) :
    m ∈ names ∧ 3 / 5 ≤ ratioS m q ∧
    ∀ x ∈ names, 3 / 5 ≤ ratioS x q →
      ratioS x q < ratioS m q ∨ (ratioS x q = ratioS m q ∧ x.data ≤ m.data) := by
  obtain ⟨p, t, hs, hpm⟩ := closestMatches_head q names m h
  have hpmem : p ∈ scoredCandidates q names (3 / 5) := by
    rw [← mem_sortD pairLt, hs]
    exact List.mem_cons_self _ _
  obtain ⟨hmem, hpr, hpc⟩ := mem_scoredCandidates _ _ _ _ hpmem
  subst hpm
  refine ⟨hmem, hpc, ?_⟩
  intro x hx hxr
  have hxmem : (ratioS x q, x) ∈ sortD pairLt (scoredCandidates q names (3 / 5)) :=
    (mem_sortD _ _ _).mpr (mk_mem_scoredCandidates _ _ _ x hx hxr)
  have hmax := headMax_sortD pairLt pairLt_asymm pairLt_trans pairLt_conn
    (scoredCandidates q names (3 / 5)) p t hs _ hxmem
  rw [pairLt, decide_eq_false_iff_not] at hmax
  push_neg at hmax
  rw [hpr] at hmax
  rcases lt_trichotomy (ratioS x q) (ratioS p.2 q) with hlt | heq | hgt
  · exact Or.inl hlt
  · exact Or.inr ⟨heq, hmax.2 heq.symm⟩
  · exact absurd hgt (not_lt.mpr hmax.1)

/-- An exact-name query resolves to that very name: its ratio is 1, every
other candidate scores at most 1, and a ratio of 1 forces string
equality, so the maximal scored pair is the query itself. -/
theorem closestMatches_self (q : String) (names : List String) (h : q ∈ names) :
    closestMatches q names = [q] := by
  have hq : (ratioS q q, q) ∈ scoredCandidates q names (3 / 5) :=
    mk_mem_scoredCandidates q names (3 / 5) q h (by rw [ratioS_self]; norm_num)
  have hqs := (mem_sortD pairLt _ _).mpr hq
  cases hs : sortD pairLt (scoredCandidates q names (3 / 5)) with
  | nil => rw [hs] at hqs; cases hqs
  | cons p t =>
    have hpmem : p ∈ scoredCandidates q names (3 / 5) := by
      rw [← mem_sortD pairLt, hs]
      exact List.mem_cons_self _ _
    obtain ⟨_, hpr, _⟩ := mem_scoredCandidates _ _ _ _ hpmem
    have hmax := headMax_sortD pairLt pairLt_asymm pairLt_trans pairLt_conn
      (scoredCandidates q names (3 / 5)) p t hs _ hqs
    rw [pairLt, decide_eq_false_iff_not] at hmax
    push_neg at hmax
    rw [ratioS_self] at hmax
    have hple : p.1 ≤ 1 := by
      rw [hpr]
      exact ratioS_le_one _ _
    have hp1 : p.1 = 1 := le_antisymm hple hmax.1
    have hp2 : p.2 = q := by
      apply ratioS_eq_one p.2 q
      rw [← hpr, hp1]
    rw [closestMatches_eq, hs]
    simp [hp2]

/-! ## Recommendation Service

`recommend(anime_name, pt, similarity_score)` (src/anime2.py lines 55-75)
and the Get Recommendations button handler (lines 90-105).  Streamlit
`st.write` output and the calls made to the resolver, the ranker
computation and the enrichment gateway are recorded as an explicit effect
trace so that the claims about observable notices and about which
collaborators are invoked can be stated.  The gateway
(`fetch_anime_details`) is an external collaborator: it is a parameter
`fetch : String → Option α` returning metadata or nothing, exactly the
contract the core consumes. -/

inductive Effect where
  | wrote (msg : String)
  | resolverCall (query : String)
  | rankerCall (index : Nat)
  | gatewayCall (anime : String)
deriving DecidableEq

/-- The notice printed on every successful resolution (line 60):
`st.write(f"Did you mean: **{matched_name}**?")`. -/
def didYouMeanMsg (m : String) : String := "Did you mean: **" ++ m ++ "**?"

inductive RecOutcome (α : Type) where
  | lookupFailure : RecOutcome α
  | noMatch : RecOutcome α
  | matched (name : String) (suggestions : List String) (details : List α) : RecOutcome α
deriving DecidableEq

/-- One iteration of the enrichment loop (lines 68-71):
`anime_details = fetch_anime_details(anime); if anime_details:
details.append(anime_details)`. -/
def enrichStep (fetch : String → Option α) (acc : List Effect × List α)
    (anime : String) : List Effect × List α :=
  match fetch anime with
  | some d => (acc.1 ++ [Effect.gatewayCall anime], acc.2 ++ [d])
  | none => (acc.1 ++ [Effect.gatewayCall anime], acc.2)

/-- The enrichment loop (lines 67-72): fetch details for every suggestion
in order, appending only the successful results; a failed fetch is
skipped and the loop continues. -/
def enrichAll (fetch : String → Option α) (suggestions : List String) :
    List Effect × List α :=
  suggestions.foldl (enrichStep fetch) ([], [])

/-- `recommend` (lines 55-75).  `pt.index.get_loc(matched_name)` is the
position of the matched name in the catalog (`List.findIdx?`, the first
position — the catalog invariant is that names are unique); its failure
branch (a pandas `KeyError`) is the `lookupFailure` outcome.  The name
lookup `pt.index[i[0]]` for a suggestion is totalised with `getD`. -/
def recommend (animeName : String) (names : List String) (M : List (List ℚ))
    (fetch : String → Option α) : List Effect × RecOutcome α :=
  match closestMatches animeName names with
  | [] =>
    ([Effect.resolverCall animeName,
      Effect.wrote "No similar anime found. Please try a different title."],
     RecOutcome.noMatch)
  | matchedName :: _ =>
    match names.findIdx? (fun x => x == matchedName) with
    | none =>
      ([Effect.resolverCall animeName, Effect.wrote (didYouMeanMsg matchedName)],
       RecOutcome.lookupFailure)
    | some index =>
      let sugg := (similarItems (rankerRow M index)).map (fun p => names.getD p.1 "")
      let enr := enrichAll fetch sugg
      ([Effect.resolverCall animeName, Effect.wrote (didYouMeanMsg matchedName),
        Effect.rankerCall index] ++ enr.1,
       RecOutcome.matched matchedName sugg enr.2)

inductive HandlerOutcome (α : Type) where
  | noInput : HandlerOutcome α
  | ran (r : RecOutcome α) : HandlerOutcome α
deriving DecidableEq

/-- The Get Recommendations button handler (lines 90-105).  Python's
`if anime_input:` is string truthiness: it is false exactly for the empty
string, so only `""` takes the no-input branch. -/
def handleGetRecommendations (animeInput : String) (names : List String)
    (M : List (List ℚ)) (fetch : String → Option α) :
    List Effect × HandlerOutcome α :=
  if animeInput = "" then
    ([Effect.wrote "Please enter an anime title."], HandlerOutcome.noInput)
  else
    let r := recommend animeInput names M fetch
    let display :=
      match r.2 with
      | RecOutcome.matched _ _ details =>
        if details.isEmpty then [Effect.wrote "No recommendations found."]
        else [Effect.wrote "### Recommended Anime"]
      | _ => [Effect.wrote "No recommendations found."]
    (r.1 ++ display, HandlerOutcome.ran r.2)

/-- `load_data` (lines 8-12): read the catalog CSV and the similarity
matrix file and return the pair.  The two file reads are modelled as
`Except`-valued inputs (pandas and numpy raise on a missing or malformed
file); the function composes them with no schema or dimension
validation of its own. -/
def load_data (csvFile : Except String (List String))
    (npyFile : Except String (List (List ℚ))) :
    Except String (List String × List (List ℚ)) :=
  csvFile.bind fun pt => npyFile.bind fun similarity => Except.ok (pt, similarity)

theorem enrichAll_go {α : Type} (fetch : String → Option α) :
    ∀ (s : List String) (acc : List Effect × List α),
      s.foldl (enrichStep fetch) acc =
      (acc.1 ++ s.map Effect.gatewayCall, acc.2 ++ s.filterMap fetch) := by
  intro s
  induction s with
  | nil => intro acc; simp
  | cons x xs ih =>
    intro acc
    simp only [List.foldl_cons, List.map_cons, List.filterMap_cons]
    rw [ih]
    rw [enrichStep]
    cases hfx : fetch x with
    | none => simp [List.append_assoc]
    | some d => simp [List.append_assoc]

theorem enrichAll_eq {α : Type} (fetch : String → Option α) (s : List String) :
    enrichAll fetch s = (s.map Effect.gatewayCall, s.filterMap fetch) := by
  rw [enrichAll, enrichAll_go]
  simp

set_option maxRecDepth 400000 in
/-- Claim C4, counterexample.  The candidate "abcyy" for the query
"abcxx" has ratio exactly 3/5 = 0.6 — it does not exceed the threshold —
yet `get_close_matches` returns it: difflib's filter is
`ratio >= cutoff`, not a strict inequality. -/
theorem claim_C4_counterexample :
    closestMatches "abcxx" ["abcyy"] = ["abcyy"] ∧
    ratioS "abcyy" "abcxx" = 3 / 5 ∧ ¬ ((3 : ℚ) / 5 > 3 / 5) := by
  have hm : matchesTotal "abcyy".data "abcxx".data = 3 := by decide
  have hT : "abcyy".data.length + "abcxx".data.length = 10 := by decide
  have hr : ratioS "abcyy" "abcxx" = 3 / 5 := by
    rw [ratioS, hm, hT, mkRatio]
    norm_num
  have hp : passesCutoff "abcyy" "abcxx" (3 / 5) = true :=
    (passesCutoff_iff _ _ _).mpr (by rw [hr])
  have hscored : scoredCandidates "abcxx" ["abcyy"] (3 / 5) = [(3 / 5, "abcyy")] := by
    rw [scoredCandidates]
    simp only [List.filterMap_cons, List.filterMap_nil, hp, if_true]
    rw [hr]
  refine ⟨?_, hr, by norm_num⟩
  rw [closestMatches_eq, hscored]
  rfl

/-- Claim C4, amended.  For every query and catalog, the resolver returns
the single best approximate match if and only if that candidate's
similarity ratio is at least (not strictly above) the threshold 3/5; with
no candidate at or above the threshold it returns no match; the returned
match is maximal in the fixed deterministic `(ratio, name)` tuple order,
so top-score ties go to the code-point-lexicographically greatest name. -/
theorem claim_C4_amended (q : String) (names : List String) :
    ((closestMatches q names = []) ↔ ∀ x ∈ names, ratioS x q < 3 / 5) ∧
    (closestMatches q names = [] ∨ ∃ m, closestMatches q names = [m]) ∧
    (∀ m, closestMatches q names = [m] →
      m ∈ names ∧ 3 / 5 ≤ ratioS m q ∧
      ∀ x ∈ names, 3 / 5 ≤ ratioS x q →
        ratioS x q < ratioS m q ∨ (ratioS x q = ratioS m q ∧ x.data ≤ m.data)) :=
  ⟨closestMatches_nil_iff q names, closestMatches_shape q names,
    fun m hm => closestMatches_spec q names m hm⟩

theorem claim_C4_amended_witness :
    ("ab" ∈ (["ab", "zz"] : List String)) ∧ (3 / 5 : ℚ) ≤ ratioS "ab" "ab" := by
  have h := (claim_C4_amended "ab" ["ab", "zz"]).2.2 "ab"
    (closestMatches_self "ab" ["ab", "zz"] (by decide))
  exact ⟨h.1, h.2.1⟩

/-- Every successful resolution writes the "did you mean" notice for the
matched name: the `st.write` on line 60 precedes everything else in the
matched branch. -/
theorem recommend_notice {α : Type} (q : String) (names : List String)
    (M : List (List ℚ)) (fetch : String → Option α) :
    ∀ m sugg det, (recommend q names M fetch).2 = RecOutcome.matched m sugg det →
      Effect.wrote (didYouMeanMsg m) ∈ (recommend q names M fetch).1 := by
  intro m sugg det h
  rcases hcm : closestMatches q names with _ | ⟨mn, rest⟩
  · simp [recommend, hcm] at h
  · rcases hfi : names.findIdx? (fun x => x == mn) with _ | i
    · simp [recommend, hcm, hfi] at h
    · simp only [recommend, hcm, hfi] at h ⊢
      have hm : mn = m := by
        injection h
      subst hm
      simp

/-- Claim C5.  An exact-name query resolves to that same name with
similarity ratio 1, the "did you mean" notice is written on this exact
match, and every successful resolution (any query) announces the matched
name. -/
theorem claim_C5_exact {α : Type} (q : String) (names : List String)
    (M : List (List ℚ)) (fetch : String → Option α) (h : q ∈ names) :
    ratioS q q = 1 ∧ closestMatches q names = [q] ∧
    Effect.wrote (didYouMeanMsg q) ∈ (recommend q names M fetch).1 ∧
    (∃ sugg det, (recommend q names M fetch).2 = RecOutcome.matched q sugg det) ∧
    (∀ q2 m sugg det, (recommend q2 names M fetch).2 = RecOutcome.matched m sugg det →
      Effect.wrote (didYouMeanMsg m) ∈ (recommend q2 names M fetch).1) := by
  have hcm := closestMatches_self q names h
  rcases hfi : names.findIdx? (fun x => x == q) with _ | i
  · exfalso
    have := List.findIdx?_eq_none_iff.mp hfi q h
    simp at this
  · refine ⟨ratioS_self q, hcm, ?_, ?_, fun q2 => recommend_notice q2 names M fetch⟩
    · simp [recommend, hcm, hfi]
    · refine ⟨(similarItems (rankerRow M i)).map (fun p => names.getD p.1 ""),
        (enrichAll fetch ((similarItems (rankerRow M i)).map (fun p => names.getD p.1 ""))).2, ?_⟩
      simp [recommend, hcm, hfi]

theorem claim_C5_exact_witness :
    ratioS "ab" "ab" = 1 ∧ closestMatches "ab" ["ab"] = ["ab"] ∧
    Effect.wrote (didYouMeanMsg "ab") ∈
      (recommend "ab" ["ab"] [[(1 : ℚ)]] (fun _ => (none : Option Unit))).1 ∧
    (∃ sugg det, (recommend "ab" ["ab"] [[(1 : ℚ)]] (fun _ => (none : Option Unit))).2 =
      RecOutcome.matched "ab" sugg det) ∧
    (∀ q2 m sugg det,
      (recommend q2 ["ab"] [[(1 : ℚ)]] (fun _ => (none : Option Unit))).2 =
        RecOutcome.matched m sugg det →
      Effect.wrote (didYouMeanMsg m) ∈
        (recommend q2 ["ab"] [[(1 : ℚ)]] (fun _ => (none : Option Unit))).1) :=
  claim_C5_exact "ab" ["ab"] [[(1 : ℚ)]] (fun _ => none) (by decide)

/-- Claim C6, counterexample.  The blank (all-whitespace) query " " is
truthy in Python, so the handler does call the resolver on it and the
outcome is not `NoInput`: only the empty string takes the no-input
branch. -/
theorem claim_C6_counterexample :
    Effect.resolverCall " " ∈
      (handleGetRecommendations " " [] [] (fun _ => (none : Option Unit))).1 ∧
    (handleGetRecommendations " " [] [] (fun _ => (none : Option Unit))).2 ≠
      HandlerOutcome.noInput := by
  decide

/-- Claim C6, amended.  For the empty query string exactly, the handler
yields the no-input outcome, writes only the prompt, and makes no
resolver, ranker or enrichment-gateway calls. -/
theorem claim_C6_amended {α : Type} (names : List String) (M : List (List ℚ))
    (fetch : String → Option α) :
    handleGetRecommendations "" names M fetch =
      ([Effect.wrote "Please enter an anime title."], HandlerOutcome.noInput) := rfl

/-- Claim C7.  The assembled details are exactly the successfully
enriched candidates in their original rank order (`filterMap`), and the
gateway is called for every ranked candidate in order, so one failed
enrichment never aborts the request or the remaining calls. -/
theorem claim_C7_enrichment {α : Type} (fetch : String → Option α) (sugg : List String) :
    (enrichAll fetch sugg).2 = sugg.filterMap fetch ∧
    (enrichAll fetch sugg).1 = sugg.map Effect.gatewayCall := by
  rw [enrichAll_eq]
  exact ⟨rfl, rfl⟩

/-- Claim C8, counterexample.  A 2-name catalog with a 3×3 similarity
matrix loads successfully: `load_data` performs no dimension check, so a
dimension mismatch does not fail at load time. -/
theorem claim_C8_counterexample :
    load_data (Except.ok ["a", "b"])
        (Except.ok [[1, 0, 0], [0, 1, 0], [0, 0, 1]]) =
      Except.ok (["a", "b"], [[1, 0, 0], [0, 1, 0], [0, 0, 1]]) ∧
    (["a", "b"] : List String).length ≠
      ([[(1 : ℚ), 0, 0], [0, 1, 0], [0, 0, 1]] : List (List ℚ)).length :=
  ⟨rfl, by decide⟩

/-- Claim C8, amended.  Loading fails exactly when reading one of the
dataset files fails (missing or malformed file), and on failure nothing
is returned (no partial state); the similarity matrix's dimensions are
not validated against the catalog's name count, so a mismatched matrix
loads successfully. -/
theorem claim_C8_amended (csvFile : Except String (List String))
    (npyFile : Except String (List (List ℚ))) :
    ((∃ e, load_data csvFile npyFile = Except.error e) ↔
      (∃ e, csvFile = Except.error e) ∨ (∃ e, npyFile = Except.error e)) ∧
    (∀ pt similarity, load_data csvFile npyFile = Except.ok (pt, similarity) →
      csvFile = Except.ok pt ∧ npyFile = Except.ok similarity) := by
  cases csvFile with
  | error e => simp [load_data, Except.bind]
  | ok pt =>
    cases npyFile with
    | error e => simp [load_data, Except.bind]
    | ok m =>
      simp only [load_data, Except.bind]
      constructor
      · simp
      · intro pt2 sim2 hok
        injection hok with hok
        injection hok with h1 h2
        exact ⟨by rw [h1], by rw [h2]⟩

theorem claim_C8_amended_witness :
    ∃ e, load_data (Except.error "missing file")
      (Except.ok ([[1]] : List (List ℚ))) = Except.error e :=
  (claim_C8_amended _ _).1.mpr (Or.inl ⟨"missing file", rfl⟩)

/-- Claim C9.  A resolved name is always an element of the catalog list,
so the index lookup after a successful resolution always succeeds and
the lookup-failure branch of `recommend` is unreachable. -/
theorem claim_C9_lookup {α : Type} (q : String) (names : List String)
    (M : List (List ℚ)) (fetch : String → Option α) :
    (recommend q names M fetch).2 ≠ RecOutcome.lookupFailure ∧
    ∀ m rest, closestMatches q names = m :: rest →
      m ∈ names ∧ (names.findIdx? (fun x => x == m)).isSome := by
  have hmem : ∀ m rest, closestMatches q names = m :: rest → m ∈ names := by
    intro m rest hc
    rcases closestMatches_shape q names with hsh | ⟨m2, hsh⟩
    · rw [hsh] at hc; cases hc
    · rw [hsh] at hc
      injection hc with h1 _
      subst h1
      exact (closestMatches_spec q names m2 hsh).1
  have hsome : ∀ m, m ∈ names → (names.findIdx? (fun x => x == m)).isSome := by
    intro m hm
    rcases hfi : names.findIdx? (fun x => x == m) with _ | i
    · exfalso
      have := List.findIdx?_eq_none_iff.mp hfi m hm
      simp at this
    · rfl
  constructor
  · rcases hcm : closestMatches q names with _ | ⟨m, rest⟩
    · simp [recommend, hcm]
    · have hm := hmem m rest hcm
      rcases hfi : names.findIdx? (fun x => x == m) with _ | i
      · have := hsome m hm
        rw [hfi] at this
        simp at this
      · simp [recommend, hcm, hfi]
  · intro m rest hc
    exact ⟨hmem m rest hc, hsome m (hmem m rest hc)⟩

theorem claim_C9_lookup_witness :
    (recommend "ab" ["ab"] [[(1 : ℚ)]] (fun _ => (none : Option Unit))).2 ≠
      RecOutcome.lookupFailure ∧ ("ab" ∈ (["ab"] : List String)) := by
  have h := claim_C9_lookup "ab" ["ab"] [[(1 : ℚ)]] (fun _ => (none : Option Unit))
  exact ⟨h.1, (h.2 "ab" [] (closestMatches_self "ab" ["ab"] (by decide))).1⟩

theorem claim_C6_amended_witness :
    handleGetRecommendations "" ["x"] [[(1 : ℚ)]] (fun _ => (none : Option Unit)) =
      ([Effect.wrote "Please enter an anime title."], HandlerOutcome.noInput) :=
  claim_C6_amended ["x"] [[(1 : ℚ)]] (fun _ => none)

theorem claim_C7_enrichment_witness :
    (enrichAll (fun s => if s = "a" then some 1 else none) ["a", "b"]).2 =
      (["a", "b"] : List String).filterMap (fun s => if s = "a" then some 1 else none) ∧
    (enrichAll (fun s => if s = "a" then some 1 else none) ["a", "b"]).1 =
      (["a", "b"] : List String).map Effect.gatewayCall :=
  claim_C7_enrichment (fun s => if s = "a" then some 1 else none) ["a", "b"]

/-! Fidelity of `quickMatches`: difflib computes `quick_ratio`'s matches
count with a dict-based loop over `a` ("viewing a and b as multisets, set
matches to the cardinality of their intersection", per its own comment).
The loop is modelled literally below and proved equal to the multiset
formulation used above. -/

theorem card_cons_inter (e : Char) (s t : Multiset Char) :
    Multiset.card ((e ::ₘ s) ∩ t) =
      Multiset.card (s ∩ t) +
        if Multiset.count e s < Multiset.count e t then 1 else 0 := by
  by_cases het : e ∈ t
  · have ht1 : 0 < Multiset.count e t := Multiset.count_pos.mpr het
    rw [Multiset.cons_inter_of_pos s het, Multiset.card_cons]
    by_cases hc : Multiset.count e s < Multiset.count e t
    · rw [if_pos hc]
      have hmeq : s ∩ t.erase e = s ∩ t := by
        rw [Multiset.ext]
        intro c
        by_cases hce : c = e
        · subst hce
          rw [Multiset.count_inter, Multiset.count_inter, Multiset.count_erase_self,
            inf_eq_min, inf_eq_min]
          omega
        · rw [Multiset.count_inter, Multiset.count_inter,
            Multiset.count_erase_of_ne hce]
      rw [hmeq]
    · rw [if_neg hc]
      have hmeq : s ∩ t = e ::ₘ (s ∩ t.erase e) := by
        rw [Multiset.ext]
        intro c
        by_cases hce : c = e
        · subst hce
          rw [Multiset.count_inter, Multiset.count_cons_self, Multiset.count_inter,
            Multiset.count_erase_self, inf_eq_min, inf_eq_min]
          omega
        · rw [Multiset.count_inter, Multiset.count_cons_of_ne hce,
            Multiset.count_inter, Multiset.count_erase_of_ne hce]
      rw [hmeq, Multiset.card_cons]
  · have ht0 : Multiset.count e t = 0 := Multiset.count_eq_zero.mpr het
    rw [Multiset.cons_inter_of_neg s het, if_neg (by omega)]
    omega

/-- `numb`: the remaining supply of `elt`, from `avail` if seen before,
else from the full count of `b`. -/
def quickNumb (bcount : Char → Nat) (avail : Char → Option Int) (elt : Char) : Int :=
  match avail elt with
  | some n => n
  | none => (bcount elt : Int)

/-- One iteration of the `quick_ratio` loop:
`avail[elt] = numb - 1; if numb > 0: matches += 1`. -/
def quickStep (bcount : Char → Nat) (st : (Char → Option Int) × Nat) (elt : Char) :
    (Char → Option Int) × Nat :=
  (fun c => if c = elt then some (quickNumb bcount st.1 elt - 1) else st.1 c,
   if 0 < quickNumb bcount st.1 elt then st.2 + 1 else st.2)

/-- The matches count of `quick_ratio`, computed exactly as the Python
loop does. -/
def quickLoopMatches (a b : List Char) : Nat :=
  (a.foldl (quickStep (fun c => b.count c)) (fun _ => none, 0)).2

/-- State of `avail` after the loop has consumed the prefix `p` of `a`. -/
def availOf (b p : List Char) : Char → Option Int :=
  fun c => if c ∈ p then some ((b.count c : Int) - p.count c) else none

theorem quickNumb_availOf (b p : List Char) (e : Char) :
    quickNumb (fun c => b.count c) (availOf b p) e = (b.count e : Int) - p.count e := by
  rw [quickNumb, availOf]
  by_cases h : e ∈ p
  · simp [h]
  · have h0 : p.count e = 0 := List.count_eq_zero.mpr h
    simp [h, h0]

theorem quickStep_availOf (b p : List Char) (e : Char) :
    quickStep (fun c => b.count c)
      (availOf b p, Multiset.card ((↑p : Multiset Char) ∩ ↑b)) e =
      (availOf b (p ++ [e]), Multiset.card ((↑(p ++ [e]) : Multiset Char) ∩ ↑b)) := by
  have hcoe : (↑(p ++ [e]) : Multiset Char) = e ::ₘ ↑p := by
    simp [Multiset.coe_add]
  rw [quickStep]
  refine Prod.ext ?_ ?_
  · show (fun c => if c = e then
        some (quickNumb (fun c => b.count c) (availOf b p) e - 1) else availOf b p c) =
      availOf b (p ++ [e])
    funext c
    rw [quickNumb_availOf]
    by_cases hce : c = e
    · subst hce
      rw [if_pos rfl, availOf, if_pos (by simp)]
      have hcnt : (p ++ [c]).count c = p.count c + 1 := by
        simp
      rw [hcnt]
      push_cast
      ring_nf
    · rw [if_neg hce, availOf, availOf]
      have hmem : (c ∈ p ++ [e]) ↔ c ∈ p := by
        simp [hce]
      have hcnt : (p ++ [e]).count c = p.count c := by
        have h1 : List.count c [e] = 0 := by
          rw [List.count_eq_zero]
          simp [hce]
        rw [List.count_append, h1]
        omega
      by_cases hcp : c ∈ p
      · rw [if_pos hcp, if_pos (hmem.mpr hcp), hcnt]
      · rw [if_neg hcp, if_neg (fun h => hcp (hmem.mp h))]
  · show (if 0 < quickNumb (fun c => b.count c) (availOf b p) e then
        Multiset.card ((↑p : Multiset Char) ∩ ↑b) + 1
      else Multiset.card ((↑p : Multiset Char) ∩ ↑b)) =
      Multiset.card ((↑(p ++ [e]) : Multiset Char) ∩ ↑b)
    rw [quickNumb_availOf, hcoe, card_cons_inter, Multiset.coe_count, Multiset.coe_count]
    by_cases hlt : p.count e < b.count e
    · rw [if_pos hlt, if_pos (by omega)]
    · rw [if_neg hlt, if_neg (by omega)]
      omega

theorem quickLoop_go (b : List Char) :
    ∀ (rest p : List Char),
      (rest.foldl (quickStep (fun c => b.count c))
        (availOf b p, Multiset.card ((↑p : Multiset Char) ∩ ↑b))).2 =
      Multiset.card ((↑(p ++ rest) : Multiset Char) ∩ ↑b) := by
  intro rest
  induction rest with
  | nil => intro p; simp
  | cons e rest ih =>
    intro p
    rw [List.foldl_cons, quickStep_availOf, ih (p ++ [e])]
    congr 2
    simp

/-- The literal `quick_ratio` loop computes exactly the multiset
intersection cardinality `quickMatches`. -/
theorem quickLoopMatches_eq (a b : List Char) :
    quickLoopMatches a b = quickMatches a b := by
  have hinit : ((fun _ => none : Char → Option Int), (0 : Nat)) =
      (availOf b [], Multiset.card ((↑([] : List Char) : Multiset Char) ∩ ↑b)) := by
    refine Prod.ext ?_ ?_
    · funext c
      simp [availOf]
    · simp
  rw [quickLoopMatches, hinit, quickLoop_go b a [], quickMatches]
  simp
